import Mathlib

/-!
Aggregation sink operator (be/src/pipeline/exec/aggregation_sink_operator.h).

A shallow embedding of the header: the readiness dependency `AggSinkDependency`,
the serialisation of the hash table into one block
(`_serialize_hash_table_to_block`), the partitioned spill
(`_spill_hash_table`) and `get_local_exchange_type`.

Conventions.
* `Status` is the value a function returns; a failed `CHECK`/`CHECK_EQ`
  (process abort) and an index past the end of a `std::vector` are not
  statuses: they are a `Fault`, and every function that can reach one lives in
  `Except Fault`.
* `size_t` subtraction that can wrap at 0 is `size_t_dec`.
* Loops are recursive functions whose arguments are the loop variables.
-/

namespace AggSink

/-! ## Readiness dependency -/

/-- Modelled from the spec: the bounded data queue of a streaming aggregation,
of which the dependency only asks `has_enough_space_to_push()`. -/
structure DataQueue where
  has_enough_space_to_push : Bool
  deriving DecidableEq, Repr

/-- Modelled from the spec: the base class `Dependency` (pipeline_x/dependency.h),
"no state of its own beyond the cached last-known boolean". `data_queue` is the
field of the shared state the dependency looks at; `none` is `nullptr`. -/
structure Dependency where
  _ready : Bool
  data_queue : Option DataQueue
  deriving DecidableEq, Repr

/-- Modelled from the spec: `Dependency::set_ready()`, the transition to `Ready`. -/
def Dependency.set_ready (d : Dependency) : Dependency :=
  { d with _ready := true }

/-- Modelled from the spec: `Dependency::block()`, the transition to `Blocked`. -/
def Dependency.block (d : Dependency) : Dependency :=
  { d with _ready := false }

/-- Modelled from the spec: the boolean gate the scheduler reads. -/
def Dependency.ready (d : Dependency) : Bool := d._ready

/-- `AggSinkDependency::_is_streaming_agg_state` (lines 78-80). -/
def AggSinkDependency._is_streaming_agg_state (d : Dependency) : Bool :=
  d.data_queue != none

/-- `AggSinkDependency::set_ready` (lines 55-64). -/
def AggSinkDependency.set_ready (d : Dependency) : Dependency :=
  if AggSinkDependency._is_streaming_agg_state d then
    match d.data_queue with
    | some q => if q.has_enough_space_to_push then Dependency.set_ready d else d
    | none => d
  else
    Dependency.set_ready d

/-- `AggSinkDependency::block` (lines 66-75). -/
def AggSinkDependency.block (d : Dependency) : Dependency :=
  if AggSinkDependency._is_streaming_agg_state d then
    match d.data_queue with
    | some q => if !q.has_enough_space_to_push then Dependency.block d else d
    | none => d
  else
    Dependency.block d

/-- The two overridden entry points of the dependency. -/
inductive DepCall
  | set_ready
  | block
  deriving DecidableEq, Repr

/-- One call on the dependency. -/
def DepCall.run : DepCall → Dependency → Dependency
  | .set_ready, d => AggSinkDependency.set_ready d
  | .block, d => AggSinkDependency.block d

/-- A finite sequence of calls, executed left to right. -/
def run_calls (cs : List DepCall) (d : Dependency) : Dependency :=
  cs.foldl (fun acc c => c.run acc) d

/-! ## Local exchange type -/

/-- `ExchangeType`, the four values the operator can return. -/
inductive ExchangeType
  | NOOP
  | PASSTHROUGH
  | HASH_SHUFFLE
  | BUCKET_HASH_SHUFFLE
  deriving DecidableEq, Repr

/-- A group-by expression context; `nullable` is whether the column created from
its data type `is_nullable()`. -/
structure ProbeExpr where
  nullable : Bool
  deriving DecidableEq, Repr

/-- The fields of `AggSinkOperatorX` read by `get_local_exchange_type`;
`child_ignore_data_distribution` is the answer of
`_child_x->ignore_data_distribution()`. -/
structure AggSinkOperatorX where
  _probe_expr_ctxs : List ProbeExpr
  _needs_finalize : Bool
  _is_colocate : Bool
  child_ignore_data_distribution : Bool
  deriving DecidableEq, Repr

/-- `AggSinkOperatorX::get_local_exchange_type` (lines 370-378). -/
def AggSinkOperatorX.get_local_exchange_type (op : AggSinkOperatorX) : ExchangeType :=
  if op._probe_expr_ctxs.isEmpty then
    if op._needs_finalize || op.child_ignore_data_distribution then
      ExchangeType.PASSTHROUGH
    else
      ExchangeType.NOOP
  else if op._is_colocate then ExchangeType.BUCKET_HASH_SHUFFLE
  else ExchangeType.HASH_SHUFFLE

/-- The two hash-shuffle exchange types. -/
def ExchangeType.is_hash_shuffle : ExchangeType → Bool
  | .HASH_SHUFFLE => true
  | .BUCKET_HASH_SHUFFLE => true
  | _ => false

/-! ## Statuses, faults, vectors -/

/-- `Status`: `OK` or an error with its code. -/
inductive Status
  | OK
  | Error (code : Nat)
  deriving DecidableEq, Repr

/-- `Status::ok()`. -/
def Status.ok : Status → Bool
  | .OK => true
  | .Error _ => false

/-- What ends a call without a `Status`: a failed `CHECK`/`CHECK_EQ` aborts the
process, an index past the end of a `std::vector` is undefined behaviour. -/
inductive Fault
  | check_failed
  | out_of_bounds
  deriving DecidableEq, Repr

/-- `CHECK(c)`. -/
def CHECK (c : Bool) : Except Fault Unit :=
  if c then pure () else throw Fault.check_failed

/-- `CHECK_EQ(a, b)` on sizes. -/
def CHECK_EQ (a b : Nat) : Except Fault Unit :=
  CHECK (a == b)

/-- Read `v[i]` of a `std::vector`. -/
def vec_get {α : Type} (v : List α) (i : Nat) : Except Fault α :=
  match v[i]? with
  | some x => pure x
  | none => throw Fault.out_of_bounds

/-- Write `v[i] = x` of a `std::vector`. -/
def vec_set {α : Type} (v : List α) (i : Nat) (x : α) : Except Fault (List α) :=
  if i < v.length then pure (v.set i x) else throw Fault.out_of_bounds

/-- `x - 1` on `size_t`: 0 wraps to `2 ^ 64 - 1`. -/
def size_t_dec (x : Nat) : Nat :=
  if x = 0 then 2 ^ 64 - 1 else x - 1

/-- `v.resize(n)` for a vector of state pointers (new slots are `nullptr`, 0). -/
def vec_resize (v : List Nat) (n : Nat) : List Nat :=
  v.take n ++ List.replicate (n - v.length) 0

/-! ## Columns and blocks -/

/-- Modelled from the spec: one cell of a column, recorded by where it comes
from, since the column encoding of keys and the aggregate functions' serialize
operation are external collaborators. `null` is `insert_data(nullptr, 0)`,
`key col k` is what `insert_keys_into_columns` puts in key column `col` for the
stored key `k`, `state function place offset` is what `serialize_to_column` of
aggregate function `function` writes for the state at `place + offset`. -/
inductive Cell (Key : Type)
  | null
  | key (col : Nat) (k : Key)
  | state (function : Nat) (place : Nat) (offset : Nat)
  deriving DecidableEq, Repr

/-- A column: its cells, first row first. -/
abbrev Column (Key : Type) := List (Cell Key)

/-- Modelled from the spec: a columnar batch, "finite, owned collection of typed
columns" (types and names are not recorded). -/
abbrev Block (Key : Type) := List (Column Key)

/-- Modelled from the spec: `Block::rows()` / `MutableBlock::rows()`, the row
count, read off the first column (0 without columns). -/
def Block.rows {Key : Type} : Block Key → Nat
  | [] => 0
  | c :: _ => c.length

/-- Modelled from the spec: `Block::clone_empty()`, same columns, no rows. -/
def Block.clone_empty {Key : Type} (b : Block Key) : Block Key :=
  b.map (fun _ => [])

/-- Modelled from the spec: `MutableBlock::add_rows(&src, begin, length)`, the
row-range append: every column receives rows `begin .. begin + length` of the
corresponding source column. -/
def MutableBlock.add_rows {Key : Type} (mb : Block Key) (src : Block Key)
    (begin length : Nat) : Block Key :=
  List.zipWith (fun d s => d ++ (s.drop begin).take length) mb src

/-! ## Hash table and shared state -/

/-- The hash table as the two functions read it: `size()`,
`has_null_key_data()`, `get_null_key_data()` and `hash(key)`. -/
structure HashTable (Key : Type) where
  size : Nat
  has_null_key_data : Bool
  null_key_data : Nat
  hash : Key → Nat

/-- An aggregate evaluator; `function` identifies its aggregate function. -/
structure AggFnEvaluator where
  function : Nat
  deriving DecidableEq, Repr

/-- `SpillContext`: `has_data`, `stream_ids`, `runtime_profile` (`none` is
`nullptr`). -/
structure SpillContext where
  has_data : Bool
  stream_ids : List Nat
  runtime_profile : Option Nat
  deriving DecidableEq, Repr

/-- `SpillPartitionHelper`: `partition_count` and `get_index(hash_value)`. -/
structure SpillPartitionHelper where
  partition_count : Nat
  get_index : Nat → Nat

/-- Modelled from the spec: the aggregate data container, "an ordered,
append-only sequence of state-row pointers plus a parallel key store" whose
iteration state is reset before each full scan: the (key, state pointer) entries
in the order one forward pass from `init_once()` to `end()` yields them. -/
abbrev AggregateDataContainer (Key : Type) := List (Key × Nat)

/-- The fields of `AggSharedState` the two functions touch. -/
structure AggSharedState (Key : Type) where
  probe_expr_ctxs : List ProbeExpr
  aggregate_evaluators : List AggFnEvaluator
  offsets_of_aggregate_states : List Nat
  values : List Nat
  aggregate_data_container : AggregateDataContainer Key
  spill_context : SpillContext
  spill_partition_helper : SpillPartitionHelper

/-! ## `_serialize_hash_table_to_block` -/

/-- The loop of lines 157-162: walk the container, storing key and state
pointer of each entry at `num_rows`. -/
def collect_container {Key : Type} :
    AggregateDataContainer Key → List Key → List Nat → Nat →
      Except Fault (List Key × List Nat × Nat)
  | [], keys, values, num_rows => pure (keys, values, num_rows)
  | (k, place) :: rest, keys, values, num_rows => do
      let keys ← vec_set keys num_rows k
      let values ← vec_set values num_rows place
      collect_container rest keys values (num_rows + 1)

/-- Modelled from the spec: `insert_keys_into_columns(keys, key_columns,
num_rows)`, the batched insert of the first `num_rows` stored keys; `j` is the
index of the first column of the list. -/
def insert_keys_into_columns {Key : Type} (keys : List Key) (num_rows : Nat) :
    Nat → List (Column Key) → List (Column Key)
  | _, [] => []
  | j, c :: cs =>
      (c ++ (keys.take num_rows).map (Cell.key j)) ::
        insert_keys_into_columns keys num_rows (j + 1) cs

/-- Modelled from the spec: `serialize_to_column(places, offset, dst, num_rows)`
of one aggregate function, across the first `num_rows` state pointers. -/
def serialize_to_column {Key : Type} (function : Nat) (places : List Nat) (offset : Nat)
    (dst : Column Key) (num_rows : Nat) : Column Key :=
  dst ++ (places.take num_rows).map (fun place => Cell.state function place offset)

/-- The loop of lines 180-185 over the evaluators from index `i` on; each
`value_columns[i]` starts as the empty serialize column of lines 137-143. -/
def serialize_values {Key : Type} (offsets_of_aggregate_states : List Nat)
    (values : List Nat) (num_rows : Nat) :
    Nat → List AggFnEvaluator → Except Fault (List (Column Key))
  | _, [] => pure []
  | i, e :: es => do
      let offset ← vec_get offsets_of_aggregate_states i
      let column := serialize_to_column e.function values offset [] num_rows
      let rest ← serialize_values offsets_of_aggregate_states values num_rows (i + 1) es
      pure (column :: rest)

/-- What `_serialize_hash_table_to_block` hands back: its status, the block,
the keys vector (`keys_`) and the shared `values` vector it filled. -/
structure Serialized (Key : Type) where
  status : Status
  block : Block Key
  keys_ : List Key
  values : List Nat

/-- `AggSinkLocalState::_serialize_hash_table_to_block` (lines 122-203). -/
def _serialize_hash_table_to_block {Key : Type} [Inhabited Key]
    (shared : AggSharedState Key) (hash_table : HashTable Key) :
    Except Fault (Serialized Key) := do
  let key_size := shared.probe_expr_ctxs.length
  let key_columns : List (Column Key) := List.replicate key_size []
  let size := hash_table.size
  let keys : List Key := List.replicate size default
  let values :=
    if shared.values.length < size then vec_resize shared.values size else shared.values
  let (keys, values, num_rows) ←
    collect_container shared.aggregate_data_container keys values 0
  let key_columns := insert_keys_into_columns keys num_rows 0 key_columns
  let (key_columns, values, num_rows) ←
    if hash_table.has_null_key_data then do
      CHECK (key_columns.length == 1)
      CHECK ((shared.probe_expr_ctxs.map ProbeExpr.nullable).head? == some true)
      let key_columns :=
        match key_columns with
        | c :: cs => (c ++ [Cell.null]) :: cs
        | [] => []
      let values ← vec_set values num_rows hash_table.null_key_data
      pure (key_columns, values, num_rows + 1)
    else
      pure (key_columns, values, num_rows)
  let value_columns ←
    serialize_values shared.offsets_of_aggregate_states values num_rows 0
      shared.aggregate_evaluators
  pure { status := Status.OK, block := key_columns ++ value_columns, keys_ := keys,
         values := values }

/-! ## `_spill_hash_table` -/

/-- Modelled from the spec: a spill writer, "sequential writer keyed by an opaque
stream id": its id, the status its `k`-th `write` returns for a block, and the
status its `k`-th `close` returns. -/
structure BlockSpillWriter (Key : Type) where
  id : Nat
  write_status : Nat → Block Key → Status
  close_status : Nat → Status

/-- The calls a writer has received: each written block with the status
returned, and the status of each `close`. -/
structure WriterLog (Key : Type) where
  writes : List (Block Key × Status)
  closes : List Status
  deriving DecidableEq, Repr

/-- `writer->write(block)`. -/
def BlockSpillWriter.write {Key : Type} (w : BlockSpillWriter Key) (log : WriterLog Key)
    (b : Block Key) : Status × WriterLog Key :=
  let st := w.write_status log.writes.length b
  (st, { log with writes := log.writes ++ [(b, st)] })

/-- `writer->close()`. -/
def BlockSpillWriter.close {Key : Type} (w : BlockSpillWriter Key) (log : WriterLog Key) :
    Status × WriterLog Key :=
  let st := w.close_status log.closes.length
  (st, { log with closes := log.closes ++ [st] })

/-- The process-wide collaborators: what `block_spill_mgr()->get_writer` answers
(its status and, when OK, the writer) and the handle `create_child` returns. -/
structure ExecEnv (Key : Type) where
  get_writer_status : Status
  writer : BlockSpillWriter Key
  create_child : Nat

/-- The loop of lines 236-241, `n` iterations left from row `i`. -/
def assign_partitions {Key : Type} (helper : SpillPartitionHelper) (hash : Key → Nat)
    (keys : List Key) :
    Nat → Nat → List Nat → List Nat → Except Fault (List Nat × List Nat)
  | 0, _, partitioned_indices, blocks_rows => pure (partitioned_indices, blocks_rows)
  | n + 1, i, partitioned_indices, blocks_rows => do
      let key ← vec_get keys i
      let index := helper.get_index (hash key)
      let partitioned_indices ← vec_set partitioned_indices i index
      let count ← vec_get blocks_rows index
      let blocks_rows ← vec_set blocks_rows index (count + 1)
      assign_partitions helper hash keys n (i + 1) partitioned_indices blocks_rows

/-- The loop of lines 265-284 for partition `i`, over the entries of
`partitioned_indices` from position `j` on, with the final flush of the pending
run. -/
def copy_partition_rows {Key : Type} (block : Block Key) (i : Nat) :
    List Nat → Nat → Nat → Nat → Block Key → Block Key
  | [], _, begin, length, mutable_block =>
      if length > 0 then MutableBlock.add_rows mutable_block block begin length
      else mutable_block
  | p :: rest, j, begin, length, mutable_block =>
      if p ≠ i then
        copy_partition_rows block i rest (j + 1) begin 0
          (if length > 0 then MutableBlock.add_rows mutable_block block begin length
           else mutable_block)
      else
        copy_partition_rows block i rest (j + 1) (if length = 0 then j else begin)
          (length + 1) mutable_block

/-- The loop of lines 250-288, `n` partitions left from partition `i`; the
status is that of the first failed `RETURN_IF_ERROR`. -/
def write_partitions {Key : Type} (writer : BlockSpillWriter Key) (block : Block Key)
    (partitioned_indices blocks_rows : List Nat) :
    Nat → Nat → WriterLog Key → Except Fault (Status × WriterLog Key)
  | 0, _, log => pure (Status.OK, log)
  | n + 1, i, log => do
      let block_to_write := Block.clone_empty block
      let count ← vec_get blocks_rows i
      if count == 0 then
        let (_, log) := writer.write log block_to_write
        write_partitions writer block partitioned_indices blocks_rows n (i + 1) log
      else
        let mutable_block := copy_partition_rows block i partitioned_indices 0 0 0 block_to_write
        CHECK_EQ (Block.rows mutable_block) count
        let (st, log) := writer.write log mutable_block
        if st.ok then
          write_partitions writer block partitioned_indices blocks_rows n (i + 1) log
        else
          pure (st, log)

/-- What a call of `_spill_hash_table` leaves: the status returned, the spill
context and `values` of the shared state, and the calls the writer received. -/
structure SpillResult (Key : Type) where
  status : Status
  spill_context : SpillContext
  values : List Nat
  log : WriterLog Key
  deriving DecidableEq, Repr

/-- Lines 230-248: the partition index of every row of the block and the row
count of every partition. -/
def partition_rows {Key : Type} (helper : SpillPartitionHelper) (hash_table : HashTable Key)
    (block : Block Key) (keys : List Key) : Except Fault (List Nat × List Nat) := do
  let partitioned_indices : List Nat := List.replicate (Block.rows block) 0
  let blocks_rows : List Nat := List.replicate helper.partition_count 0
  let rows :=
    if hash_table.has_null_key_data then size_t_dec (Block.rows block)
    else Block.rows block
  let (partitioned_indices, blocks_rows) ←
    assign_partitions helper hash_table.hash keys rows 0 partitioned_indices blocks_rows
  if hash_table.has_null_key_data then do
    let index := size_t_dec helper.partition_count
    let partitioned_indices ← vec_set partitioned_indices rows index
    let count ← vec_get blocks_rows index
    let blocks_rows ← vec_set blocks_rows index (count + 1)
    pure (partitioned_indices, blocks_rows)
  else
    pure (partitioned_indices, blocks_rows)

/-- `AggSinkLocalState::_spill_hash_table` (lines 206-292). Each
`RETURN_IF_ERROR` is an `if` on the status; the `Defer` of lines 224-227 closes
the writer once more on every return after the acquisition. -/
def _spill_hash_table {Key : Type} [Inhabited Key] (env : ExecEnv Key)
    (shared : AggSharedState Key) (hash_table : HashTable Key) :
    Except Fault (SpillResult Key) := do
  let ser ← _serialize_hash_table_to_block shared hash_table
  let log : WriterLog Key := { writes := [], closes := [] }
  if !ser.status.ok then
    pure { status := ser.status, spill_context := shared.spill_context,
           values := ser.values, log := log }
  else
    let block := ser.block
    let keys := ser.keys_
    CHECK_EQ (Block.rows block) hash_table.size
    CHECK_EQ keys.length (Block.rows block)
    let spill_context :=
      if !shared.spill_context.has_data then
        { shared.spill_context with
          has_data := true, runtime_profile := some env.create_child }
      else shared.spill_context
    if !env.get_writer_status.ok then
      pure { status := env.get_writer_status, spill_context := spill_context,
             values := ser.values, log := log }
    else
      let writer := env.writer
      let spill_context :=
        { spill_context with stream_ids := spill_context.stream_ids ++ [writer.id] }
      let (partitioned_indices, blocks_rows) ←
        partition_rows shared.spill_partition_helper hash_table block keys
      let (st, log) ←
        write_partitions writer block partitioned_indices blocks_rows
          shared.spill_partition_helper.partition_count 0 log
      if !st.ok then
        let (_, log) := writer.close log
        pure { status := st, spill_context := spill_context, values := ser.values,
               log := log }
      else
        let (st, log) := writer.close log
        let (_, log) := writer.close log
        pure { status := st, spill_context := spill_context, values := ser.values,
               log := log }

/-! ## Specification vocabulary for the spill -/

/-- The cells of column `c` whose row is assigned partition `i` by
`partitioned_indices`, in their original order. -/
def select_column {α : Type} (c : List α) (partitioned_indices : List Nat) (i : Nat) :
    List α :=
  ((c.zip partitioned_indices).filter (fun x => x.2 == i)).map Prod.fst

/-- The sub-block of the rows assigned partition `i`: every column filtered by
the same row selection. -/
def select_rows {Key : Type} (block : Block Key) (partitioned_indices : List Nat) (i : Nat) :
    Block Key :=
  block.map (fun c => select_column c partitioned_indices i)

/-- How many rows each of the partitions `0 .. P-1` is assigned. -/
def tally (P : Nat) (partitioned_indices : List Nat) : List Nat :=
  (List.range P).map (fun p => partitioned_indices.count p)

/-- The hash table and the container agree: `size()` counts one entry per
container entry plus the null-key slot when it holds data. -/
@[reducible] def entries_match {Key : Type} (shared : AggSharedState Key)
    (hash_table : HashTable Key) : Prop :=
  shared.aggregate_data_container.length + (if hash_table.has_null_key_data then 1 else 0) =
    hash_table.size

/-- The hash table reports at least the entries there are: the container's
entries and the null-key slot, when it holds data, fit in `size()`. -/
@[reducible] def entries_fit {Key : Type} (shared : AggSharedState Key)
    (hash_table : HashTable Key) : Prop :=
  shared.aggregate_data_container.length + (if hash_table.has_null_key_data then 1 else 0) ≤
    hash_table.size

/-- The schema the hash-table aggregation is set up with: there are group-by
expressions, a table with null-key data has exactly one, nullable, and every
evaluator has its offset. -/
@[reducible] def schema_ok {Key : Type} (shared : AggSharedState Key)
    (hash_table : HashTable Key) : Prop :=
  shared.probe_expr_ctxs ≠ [] ∧
  (hash_table.has_null_key_data = true →
    shared.probe_expr_ctxs.map ProbeExpr.nullable = [true]) ∧
  shared.aggregate_evaluators.length ≤ shared.offsets_of_aggregate_states.length

/-- Key column `j` as the spec describes it: the keys of the container entries
in iteration order, then the null key if the table has null-key data. -/
def key_column {Key : Type} (entries : List (Key × Nat)) (has_null_key_data : Bool)
    (j : Nat) : Column Key :=
  entries.map (fun e => Cell.key j e.1) ++ (if has_null_key_data then [Cell.null] else [])

/-- A value column as the spec describes it: the serialized state of every
container entry in iteration order, then the null-key state if present. -/
def value_column {Key : Type} (entries : List (Key × Nat)) (has_null_key_data : Bool)
    (null_key_data : Nat) (function offset : Nat) : Column Key :=
  entries.map (fun e => Cell.state function e.2 offset) ++
    (if has_null_key_data then [Cell.state function null_key_data offset] else [])

/-- The block the spec describes: the key columns, then one value column per
aggregate evaluator. -/
def expected_block {Key : Type} (shared : AggSharedState Key) (hash_table : HashTable Key) :
    Block Key :=
  (List.range shared.probe_expr_ctxs.length).map
      (key_column shared.aggregate_data_container hash_table.has_null_key_data) ++
    List.zipWith
      (fun e offset => value_column shared.aggregate_data_container
        hash_table.has_null_key_data hash_table.null_key_data e.function offset)
      shared.aggregate_evaluators shared.offsets_of_aggregate_states

/-- The `values` vector as `_serialize_hash_table_to_block` finds it after the
resize of lines 148-150. -/
def resized_values {Key : Type} (shared : AggSharedState Key) (hash_table : HashTable Key) :
    List Nat :=
  if shared.values.length < hash_table.size then vec_resize shared.values hash_table.size
  else shared.values

/-- The partition of every row as the spec describes it: each container entry
goes to `get_index(hash(key))`, the null-key row, if any, to the last partition. -/
def expected_indices {Key : Type} (shared : AggSharedState Key) (hash_table : HashTable Key) :
    List Nat :=
  shared.aggregate_data_container.map
      (fun e => shared.spill_partition_helper.get_index (hash_table.hash e.1)) ++
    (if hash_table.has_null_key_data then [shared.spill_partition_helper.partition_count - 1]
     else [])

/-- The null-key row as the spec describes it: a null key, then the serialized
null-key state for every aggregate function. -/
def null_key_row {Key : Type} (shared : AggSharedState Key) (hash_table : HashTable Key) :
    List (Cell Key) :=
  (List.range shared.probe_expr_ctxs.length).map (fun _ => Cell.null) ++
    List.zipWith (fun e offset => Cell.state e.function hash_table.null_key_data offset)
      shared.aggregate_evaluators shared.offsets_of_aggregate_states

/-! ## Concrete inputs -/

/-- A shared state with one nullable group-by key, one aggregate function, three
groups in the container, two spill partitions chosen by the parity of the hash,
and no spill so far. -/
def sample_shared : AggSharedState Nat :=
  { probe_expr_ctxs := [⟨true⟩]
    aggregate_evaluators := [⟨10⟩]
    offsets_of_aggregate_states := [0]
    values := []
    aggregate_data_container := [(5, 100), (6, 200), (7, 300)]
    spill_context := ⟨false, [], none⟩
    spill_partition_helper := ⟨2, fun h => h % 2⟩ }

/-- The hash table of `sample_shared`: the three groups and a null-key slot. -/
def sample_table : HashTable Nat :=
  { size := 4, has_null_key_data := true, null_key_data := 999, hash := fun k => k }

/-- The same shared state with nothing in the container. -/
def empty_shared : AggSharedState Nat :=
  { sample_shared with aggregate_data_container := [] }

/-- An empty hash table without null-key data. -/
def empty_table : HashTable Nat :=
  { size := 0, has_null_key_data := false, null_key_data := 0, hash := fun k => k }

/-- A spill manager that hands out writer 7, every call of which succeeds. -/
def sample_env : ExecEnv Nat :=
  { get_writer_status := Status.OK
    writer := { id := 7, write_status := fun _ _ => Status.OK, close_status := fun _ => Status.OK }
    create_child := 1 }

/-- A spill manager whose writer fails every `write` with error 5 and closes
cleanly. -/
def failing_write_env : ExecEnv Nat :=
  { sample_env with
    writer := { id := 7, write_status := fun _ _ => Status.Error 5,
                close_status := fun _ => Status.OK } }

/-- A spill manager whose `get_writer` fails with error 3. -/
def no_writer_env : ExecEnv Nat :=
  { sample_env with get_writer_status := Status.Error 3 }

/-! ## Theorems: readiness dependency and exchange type -/

theorem run_calls_append (cs : List DepCall) (c : DepCall) (d : Dependency) :
    run_calls (cs ++ [c]) d = c.run (run_calls cs d) := by
  simp [run_calls, List.foldl_append]

theorem run_keeps_queue (c : DepCall) (d : Dependency) :
    (c.run d).data_queue = d.data_queue := by
  cases c <;> cases d with
  | mk r q =>
    cases q with
    | none => simp [DepCall.run, AggSinkDependency.set_ready, AggSinkDependency.block,
        AggSinkDependency._is_streaming_agg_state, Dependency.set_ready, Dependency.block]
    | some q =>
      cases hq : q.has_enough_space_to_push <;>
        simp [DepCall.run, AggSinkDependency.set_ready, AggSinkDependency.block,
          AggSinkDependency._is_streaming_agg_state, Dependency.set_ready, Dependency.block, hq]

theorem run_calls_keeps_queue (cs : List DepCall) (d : Dependency) :
    (run_calls cs d).data_queue = d.data_queue := by
  induction cs using List.reverseRecOn with
  | nil => rfl
  | append_singleton cs c ih => rw [run_calls_append, run_keeps_queue, ih]

/-- C3 as stated fails: a ready dependency over a full queue is still ready after
`set_ready()`. -/
theorem streaming_set_ready_keeps_stale_ready :
    AggSinkDependency._is_streaming_agg_state ⟨true, some ⟨false⟩⟩ = true ∧
    ¬ ((AggSinkDependency.set_ready ⟨true, some ⟨false⟩⟩).ready = false ↔
        (DataQueue.mk false).has_enough_space_to_push = false) := by
  decide

/-- C3 (amended): for a streaming state with queue `q`, `set_ready()` makes the
base transition to ready only when the queue has space and `block()` the base
transition to blocked only when it has none, each leaving the dependency alone
otherwise; so `set_ready()` leaves it not-ready iff the queue lacks space and it
was not-ready before, `block()` leaves it not-ready iff the queue lacks space or
it was not-ready before, and after both calls, in either order, it is not-ready
iff the queue lacks space, whatever the cached boolean was. -/
theorem streaming_dependency_readiness (d : Dependency) (q : DataQueue)
    (h : d.data_queue = some q) :
    ((AggSinkDependency.set_ready d).ready = false ↔
        (q.has_enough_space_to_push = false ∧ d.ready = false)) ∧
    ((AggSinkDependency.block d).ready = false ↔
        (q.has_enough_space_to_push = false ∨ d.ready = false)) ∧
    ((AggSinkDependency.block (AggSinkDependency.set_ready d)).ready = false ↔
        q.has_enough_space_to_push = false) ∧
    ((AggSinkDependency.set_ready (AggSinkDependency.block d)).ready = false ↔
        q.has_enough_space_to_push = false) ∧
    AggSinkDependency.set_ready d =
      (if q.has_enough_space_to_push then Dependency.set_ready d else d) ∧
    AggSinkDependency.block d =
      (if q.has_enough_space_to_push then d else Dependency.block d) := by
  cases d with
  | mk r dq =>
    simp only at h
    subst h
    cases q with
    | mk sp =>
      cases sp <;> cases r <;> decide

theorem streaming_dependency_readiness_witness :
    (Dependency.mk true (some ⟨false⟩)).data_queue = some ⟨false⟩ ∧
    ((AggSinkDependency.block (AggSinkDependency.set_ready ⟨true, some ⟨false⟩⟩)).ready = false ↔
        (DataQueue.mk false).has_enough_space_to_push = false) :=
  ⟨rfl, (streaming_dependency_readiness ⟨true, some ⟨false⟩⟩ ⟨false⟩ rfl).2.2.1⟩

/-- C4 as stated fails: a ready non-streaming dependency is not ready after one
`block()`. -/
theorem non_streaming_block_blocks :
    AggSinkDependency._is_streaming_agg_state ⟨true, none⟩ = false ∧
    (Dependency.mk true none).ready = true ∧
    (run_calls [DepCall.block] ⟨true, none⟩).ready = false := by
  decide

/-- C4 (amended): for a non-streaming state `set_ready()` and `block()` are the
base transitions, unconditionally: every `set_ready()` makes the dependency
ready and every `block()` makes it not ready, so after a finite sequence of
calls it is ready iff the last call is `set_ready()` (or, for the empty
sequence, iff it was ready); in particular it stays ready along any sequence of
`set_ready()` calls. -/
theorem non_streaming_dependency_readiness (d : Dependency) (cs : List DepCall)
    (h : d.data_queue = none) :
    (run_calls cs d).ready =
      (match cs.getLast? with
       | none => d.ready
       | some DepCall.set_ready => true
       | some DepCall.block => false) ∧
    ((∀ c ∈ cs, c = DepCall.set_ready) → d.ready = true → (run_calls cs d).ready = true) ∧
    AggSinkDependency.set_ready d = Dependency.set_ready d ∧
    AggSinkDependency.block d = Dependency.block d := by
  have key : (run_calls cs d).ready =
      (match cs.getLast? with
       | none => d.ready
       | some DepCall.set_ready => true
       | some DepCall.block => false) := by
    induction cs using List.reverseRecOn with
    | nil => rfl
    | append_singleton cs c _ =>
      have hq : (run_calls cs d).data_queue = none := by rw [run_calls_keeps_queue, h]
      rw [run_calls_append, List.getLast?_append]
      cases c <;>
        simp [DepCall.run, AggSinkDependency.set_ready, AggSinkDependency.block,
          AggSinkDependency._is_streaming_agg_state, hq, Dependency.set_ready,
          Dependency.block, Dependency.ready]
  refine ⟨key, ?_, ?_, ?_⟩
  · intro hall hr
    rw [key]
    cases hl : cs.getLast? with
    | none => simpa using hr
    | some c =>
      have hc : c = DepCall.set_ready := hall c (List.mem_of_getLast?_eq_some hl)
      subst hc
      rfl
  · simp [AggSinkDependency.set_ready, AggSinkDependency._is_streaming_agg_state, h]
  · simp [AggSinkDependency.block, AggSinkDependency._is_streaming_agg_state, h]

theorem non_streaming_dependency_readiness_witness :
    (Dependency.mk true none).data_queue = none ∧
    (run_calls [DepCall.block, DepCall.set_ready] ⟨true, none⟩).ready = true :=
  ⟨rfl, (non_streaming_dependency_readiness ⟨true, none⟩
    [DepCall.block, DepCall.set_ready] rfl).1⟩

/-- C8: `get_local_exchange_type` is total and decided as follows: with group-by
keys it is BUCKET_HASH_SHUFFLE if colocated and HASH_SHUFFLE otherwise, whatever
the other two inputs; without group-by keys it is PASSTHROUGH if finalizing or
the child ignores data distribution and NOOP otherwise, whatever `is_colocate`;
so it is a hash-shuffle type iff group-by keys exist. -/
theorem get_local_exchange_type_table (op : AggSinkOperatorX) :
    (op._probe_expr_ctxs ≠ [] →
      op.get_local_exchange_type =
        if op._is_colocate then ExchangeType.BUCKET_HASH_SHUFFLE
        else ExchangeType.HASH_SHUFFLE) ∧
    (op._probe_expr_ctxs = [] →
      op.get_local_exchange_type =
        if op._needs_finalize || op.child_ignore_data_distribution then
          ExchangeType.PASSTHROUGH
        else ExchangeType.NOOP) ∧
    (op.get_local_exchange_type.is_hash_shuffle = true ↔ op._probe_expr_ctxs ≠ []) := by
  cases op with
  | mk ctxs fin col ign =>
    cases ctxs with
    | nil =>
      cases fin <;> cases ign <;>
        simp [AggSinkOperatorX.get_local_exchange_type, ExchangeType.is_hash_shuffle]
    | cons e es =>
      cases col <;>
        simp [AggSinkOperatorX.get_local_exchange_type, ExchangeType.is_hash_shuffle]

/-! ## Lemmas: copying the rows of one partition -/

theorem zipWith_map_left {α β γ : Type} (f : β → α → γ) (g : α → β) (l : List α) :
    List.zipWith f (l.map g) l = l.map (fun c => f (g c) c) := by
  induction l with
  | nil => rfl
  | cons a l ih => simp [ih]

theorem add_rows_map {Key : Type} (block : Block Key) (g : Column Key → Column Key)
    (begin length : Nat) :
    MutableBlock.add_rows (block.map g) block begin length =
      block.map (fun c => g c ++ (c.drop begin).take length) := by
  unfold MutableBlock.add_rows
  exact zipWith_map_left _ g block

theorem take_one_drop {α : Type} (col : List α) (j : Nat) :
    (col.drop j).take 1 = (col[j]?).toList := by
  rw [List.take_succ]
  simp [List.getElem?_drop]

theorem take_succ_drop {α : Type} (col : List α) (b n : Nat) :
    (col.drop b).take (n + 1) = (col.drop b).take n ++ (col.drop (b + n)).take 1 := by
  rw [List.take_succ, take_one_drop]
  simp [List.getElem?_drop]

theorem select_column_nil_right {α : Type} (c : List α) (i : Nat) :
    select_column c [] i = [] := by
  simp [select_column]

theorem select_column_drop_cons {α : Type} (col : List α) (j p : Nat) (ps : List Nat)
    (i : Nat) :
    select_column (col.drop j) (p :: ps) i =
      (if p = i then (col.drop j).take 1 else []) ++
        select_column (col.drop (j + 1)) ps i := by
  by_cases h : j < col.length
  · have hd := List.drop_eq_getElem_cons h
    generalize col[j] = x at hd
    generalize col.drop (j + 1) = t at hd
    rw [hd]
    by_cases hp : p = i
    · simp [select_column, List.filter_cons, hp]
    · simp [select_column, List.filter_cons, hp]
  · have h1 : col.drop j = [] := List.drop_eq_nil_of_le (by omega)
    have h2 : col.drop (j + 1) = [] := List.drop_eq_nil_of_le (by omega)
    simp [h1, h2, select_column]

/-- The run-coalescing loop computes the row selection: started on the columns
`g c` with a pending run `begin, length` that ends at `j`, it appends the pending
run and then the selected rows from `j` on. -/
theorem copy_partition_rows_map {Key : Type} (block : Block Key) (i : Nat) :
    ∀ (ps : List Nat) (j begin length : Nat) (g : Column Key → Column Key),
      (0 < length → begin + length = j) →
      copy_partition_rows block i ps j begin length (block.map g) =
        block.map (fun c => g c ++ (c.drop begin).take length ++
          select_column (c.drop j) ps i) := by
  intro ps
  induction ps with
  | nil =>
    intro j begin length g _
    by_cases hl : 0 < length
    · simp [copy_partition_rows, hl, add_rows_map, select_column_nil_right]
    · have h0 : length = 0 := by omega
      simp [copy_partition_rows, h0, select_column_nil_right]
  | cons p ps ih =>
    intro j begin length g hrun
    by_cases hp : p = i
    · have hrun2 : 0 < length + 1 → (if length = 0 then j else begin) + (length + 1) = j + 1 := by
        intro _
        by_cases h0 : length = 0
        · simp [h0]
        · simp only [h0, if_false]
          have := hrun (by omega)
          omega
      rw [copy_partition_rows]
      simp only [hp, ne_eq, not_true_eq_false, if_false]
      rw [ih (j + 1) _ (length + 1) g (by simpa [hp] using hrun2)]
      apply List.map_congr_left
      intro c _
      rw [select_column_drop_cons]
      by_cases h0 : length = 0
      · simp [h0]
      · have hj : begin + length = j := hrun (by omega)
        simp only [h0, if_false, hp, if_true]
        rw [take_succ_drop, hj]
        simp [List.append_assoc]
    · rw [copy_partition_rows]
      simp only [ne_eq, hp, not_false_eq_true, if_true]
      by_cases hl : 0 < length
      · simp only [hl, if_true, add_rows_map]
        rw [ih (j + 1) begin 0 _ (by intro h; omega)]
        apply List.map_congr_left
        intro c _
        rw [select_column_drop_cons]
        simp [hp]
      · have h0 : length = 0 := by omega
        subst h0
        simp only [lt_irrefl, if_false]
        rw [ih (j + 1) begin 0 g (by intro h; omega)]
        apply List.map_congr_left
        intro c _
        rw [select_column_drop_cons]
        simp [hp]

/-- Lines 259-284 for partition `i`: starting from the empty clone, the loop
builds exactly the rows assigned to `i`. -/
theorem copy_partition_rows_eq_select {Key : Type} (block : Block Key) (i : Nat)
    (partitioned_indices : List Nat) :
    copy_partition_rows block i partitioned_indices 0 0 0 (Block.clone_empty block) =
      select_rows block partitioned_indices i := by
  unfold Block.clone_empty select_rows
  rw [copy_partition_rows_map block i partitioned_indices 0 0 0 (fun _ => []) (by intro h; omega)]
  apply List.map_congr_left
  intro c _
  simp

/-! ## Lemmas: row counts of the selections -/

theorem select_column_length_le {α : Type} (pi : List Nat) (i : Nat) :
    ∀ col : List α, (select_column col pi i).length ≤ pi.count i := by
  induction pi with
  | nil => intro col; simp [select_column]
  | cons p ps ih =>
    intro col
    cases col with
    | nil => simp [select_column]
    | cons x xs =>
      have h := ih xs
      unfold select_column at h ⊢
      by_cases hp : p = i
      · simp [List.filter_cons, hp] at h ⊢
        exact h
      · simp [List.filter_cons, hp, List.count_cons] at h ⊢
        exact h

theorem select_column_length {α : Type} (pi : List Nat) (i : Nat) :
    ∀ col : List α, col.length = pi.length → (select_column col pi i).length = pi.count i := by
  induction pi with
  | nil => intro col _; simp [select_column]
  | cons p ps ih =>
    intro col hlen
    cases col with
    | nil => simp at hlen
    | cons x xs =>
      have h := ih xs (by simpa using hlen)
      unfold select_column at h ⊢
      by_cases hp : p = i
      · simp [List.filter_cons, hp] at h ⊢
        exact h
      · simp [List.filter_cons, hp, List.count_cons] at h ⊢
        exact h

theorem select_column_eq_nil {α : Type} (col : List α) (pi : List Nat) (i : Nat)
    (h : pi.count i = 0) : select_column col pi i = [] := by
  have := select_column_length_le pi i col
  exact List.length_eq_zero.mp (by omega)

theorem clone_empty_eq_select {Key : Type} (block : Block Key) (pi : List Nat) (i : Nat)
    (h : pi.count i = 0) : Block.clone_empty block = select_rows block pi i := by
  unfold Block.clone_empty select_rows
  apply List.map_congr_left
  intro col _
  rw [select_column_eq_nil col pi i h]

theorem rows_select_rows {Key : Type} (block : Block Key) (pi : List Nat) (i : Nat)
    (hcols : ∀ col ∈ block, col.length = pi.length)
    (hne : block = [] → pi.count i = 0) :
    Block.rows (select_rows block pi i) = pi.count i := by
  cases block with
  | nil => simp [select_rows, Block.rows, hne rfl]
  | cons col cols =>
    simp only [select_rows, List.map_cons, Block.rows]
    exact select_column_length pi i col (hcols col (List.mem_cons_self _ _))

theorem tally_length (P : Nat) (l : List Nat) : (tally P l).length = P := by
  simp [tally]

theorem vec_get_tally (P : Nat) (l : List Nat) (p : Nat) (hp : p < P) :
    vec_get (tally P l) p = Except.ok (l.count p) := by
  simp [vec_get, tally, List.getElem?_map, List.getElem?_range hp]
  rfl

theorem vec_set_tally (P : Nat) (l : List Nat) (p : Nat) (hp : p < P) :
    vec_set (tally P l) p (l.count p + 1) = Except.ok (tally P (l ++ [p])) := by
  unfold vec_set
  rw [if_pos (by simpa [tally_length] using hp)]
  congr 1
  apply List.ext_getElem
  · simp [tally]
  · intro n h1 h2
    simp only [tally, List.length_map, List.length_range] at h2
    by_cases hn : p = n
    · subst hn
      simp [tally, List.count_append]
    · rw [List.getElem_set_ne hn]
      simp [tally, List.count_append, List.count_singleton, hn]

theorem count_lt_succ (l : List Nat) (P : Nat) :
    l.countP (fun x => decide (x < P + 1)) = l.countP (fun x => decide (x < P)) + l.count P := by
  induction l with
  | nil => rfl
  | cons x xs ih =>
    simp only [List.countP_cons, List.count_cons, ih]
    by_cases h1 : x < P
    · have h2 : x < P + 1 := by omega
      have h3 : ¬ x = P := by omega
      simp [h1, h2, h3]
      omega
    · by_cases h3 : x = P
      · subst h3
        simp
        omega
      · have h2 : ¬ x < P + 1 := by omega
        simp [h1, h2, h3]

theorem sum_tally_countP (l : List Nat) (P : Nat) :
    (tally P l).sum = l.countP (fun x => decide (x < P)) := by
  induction P with
  | zero => simp [tally]
  | succ P ih =>
    unfold tally at ih ⊢
    rw [List.range_succ, List.map_append, List.sum_append, ih, count_lt_succ]
    simp

/-- Every row is counted in exactly one partition: the tallies add up to the
number of rows when every index is below `P`. -/
theorem sum_tally (l : List Nat) (P : Nat) (h : ∀ x ∈ l, x < P) :
    (tally P l).sum = l.length := by
  rw [sum_tally_countP, List.countP_eq_length]
  intro x hx
  simpa using h x hx

/-! ## Lemmas: assigning rows to partitions -/

theorem vec_get_append_cons {α : Type} (a : List α) (x : α) (b : List α) :
    vec_get (a ++ x :: b) a.length = Except.ok x := by
  have h : (a ++ x :: b)[a.length]? = some x := by
    rw [List.getElem?_append_right (le_refl _)]
    simp
  simp only [vec_get, h]
  rfl

theorem vec_set_append_cons {α : Type} (a : List α) (y x : α) (b : List α) :
    vec_set (a ++ y :: b) a.length x = Except.ok (a ++ x :: b) := by
  simp [vec_set]
  rfl

/-- The loop of lines 236-241 overwrites the next `ktodo.length` entries of
`partitioned_indices` with the partition of each key, keeping `blocks_rows` the
tally of the entries written so far. -/
theorem assign_partitions_spec {Key : Type} (helper : SpillPartitionHelper)
    (hash : Key → Nat) (P : Nat) :
    ∀ (ktodo kdone kextra : List Key) (done rest : List Nat),
      done.length = kdone.length → ktodo.length ≤ rest.length →
      (∀ k ∈ ktodo, helper.get_index (hash k) < P) →
      assign_partitions helper hash (kdone ++ ktodo ++ kextra) ktodo.length kdone.length
          (done ++ rest) (tally P done) =
        Except.ok (done ++ ktodo.map (fun k => helper.get_index (hash k)) ++
            rest.drop ktodo.length,
          tally P (done ++ ktodo.map (fun k => helper.get_index (hash k)))) := by
  intro ktodo
  induction ktodo with
  | nil =>
    intro kdone kextra done rest _ _ _
    simp [assign_partitions]
    rfl
  | cons k ks ih =>
    intro kdone kextra done rest hlen hrest hidx
    cases rest with
    | nil => simp at hrest
    | cons r rest =>
      have hk : helper.get_index (hash k) < P := hidx k (List.mem_cons_self _ _)
      have h1 : vec_get (kdone ++ (k :: ks) ++ kextra) kdone.length = Except.ok k := by
        rw [List.append_assoc, List.cons_append]
        exact vec_get_append_cons kdone k (ks ++ kextra)
      have h2 : vec_set (done ++ r :: rest) kdone.length (helper.get_index (hash k)) =
          Except.ok (done ++ helper.get_index (hash k) :: rest) := by
        rw [← hlen]
        exact vec_set_append_cons done r _ rest
      have h3 := vec_get_tally P done _ hk
      have h4 := vec_set_tally P done _ hk
      have hih : assign_partitions helper hash (kdone ++ (k :: ks) ++ kextra) ks.length
          (kdone.length + 1) (done ++ helper.get_index (hash k) :: rest)
          (tally P (done ++ [helper.get_index (hash k)])) =
          Except.ok (done ++ (k :: ks).map (fun k => helper.get_index (hash k)) ++
              (r :: rest).drop (k :: ks).length,
            tally P (done ++ (k :: ks).map (fun k => helper.get_index (hash k)))) := by
        have h := ih (kdone ++ [k]) kextra (done ++ [helper.get_index (hash k)]) rest
          (by simp [hlen]) (by simpa using hrest)
          (fun k' hk' => hidx k' (List.mem_cons_of_mem _ hk'))
        simpa using h
      simp only [List.length_cons, assign_partitions, h1, h2, h3, h4, bind, Except.bind]
      exact hih

/-! ## Lemmas: the per-partition write loop -/

theorem check_eq_self (a b : Nat) (h : a = b) : CHECK_EQ a b = Except.ok () := by
  subst h
  simp [CHECK_EQ, CHECK]
  rfl

/-- The loop of lines 250-288, run with `blocks_rows` the tally of
`partitioned_indices` over a block whose columns all have one cell per row:
it never faults, it leaves the closes alone, the `m` writes it issues carry the
row selections of partitions `i, i+1, ..` in this order, and it issues all `n`
of them when it returns OK, which it does when no write failed. -/
theorem write_partitions_spec {Key : Type} (writer : BlockSpillWriter Key) (block : Block Key)
    (pi : List Nat) (P : Nat)
    (hcols : ∀ col ∈ block, col.length = pi.length) (hne : block = [] → pi = []) :
    ∀ (n i : Nat) (log : WriterLog Key), i + n = P →
      ∃ (st : Status) (log' : WriterLog Key) (m : Nat) (new : List (Block Key × Status)),
        write_partitions writer block pi (tally P pi) n i log = Except.ok (st, log') ∧
        m ≤ n ∧ log'.closes = log.closes ∧ log'.writes = log.writes ++ new ∧
        new.map Prod.fst = (List.range' i m).map (select_rows block pi) ∧
        (st.ok = true → m = n) ∧
        ((∀ w ∈ new, w.2 = Status.OK) → st = Status.OK) := by
  intro n
  induction n with
  | zero =>
    intro i log _
    exact ⟨Status.OK, log, 0, [], rfl, le_refl _, rfl, by simp, by simp, fun _ => rfl,
      fun _ => rfl⟩
  | succ n ih =>
    intro i log hi
    have hiP : i < P := by omega
    have hget := vec_get_tally P pi i hiP
    rw [write_partitions]
    simp only [hget, bind, Except.bind]
    by_cases hc : pi.count i = 0
    · obtain ⟨st, log', m, new, hrun, hm, hcl, hw, hblocks, hok, hall⟩ :=
        ih (i + 1) (writer.write log (Block.clone_empty block)).2 (by omega)
      refine ⟨st, log', m + 1,
        (Block.clone_empty block, writer.write_status log.writes.length
          (Block.clone_empty block)) :: new, ?_, by omega, ?_, ?_, ?_, ?_, ?_⟩
      · simp only [hc, beq_self_eq_true, if_true]
        exact hrun
      · rw [hcl]; rfl
      · rw [hw]; simp [BlockSpillWriter.write]
      · rw [List.range'_succ, List.map_cons, List.map_cons, hblocks,
          clone_empty_eq_select block pi i hc]
      · intro h; have := hok h; omega
      · intro h
        exact hall (fun w hw' => h w (List.mem_cons_of_mem _ hw'))
    · have hbeq : (pi.count i == 0) = false := by simpa using hc
      have hsel := copy_partition_rows_eq_select block i pi
      have hrows : Block.rows (select_rows block pi i) = pi.count i :=
        rows_select_rows block pi i hcols (by intro hb; simp [hne hb])
      simp only [hbeq, hsel, check_eq_self _ _ hrows]
      cases hst : (writer.write_status log.writes.length (select_rows block pi i)).ok with
      | true =>
        obtain ⟨st, log', m, new, hrun, hm, hcl, hw, hblocks, hok, hall⟩ :=
          ih (i + 1) (writer.write log (select_rows block pi i)).2 (by omega)
        refine ⟨st, log', m + 1,
          (select_rows block pi i, writer.write_status log.writes.length
            (select_rows block pi i)) :: new, ?_, by omega, ?_, ?_, ?_, ?_, ?_⟩
        · simp only [BlockSpillWriter.write, hst, if_true] at hrun ⊢
          exact hrun
        · rw [hcl]; rfl
        · rw [hw]; simp [BlockSpillWriter.write]
        · rw [List.range'_succ, List.map_cons, List.map_cons, hblocks]
        · intro h; have := hok h; omega
        · intro h
          exact hall (fun w hw' => h w (List.mem_cons_of_mem _ hw'))
      | false =>
        refine ⟨writer.write_status log.writes.length (select_rows block pi i),
          (writer.write log (select_rows block pi i)).2, 1,
          [(select_rows block pi i, writer.write_status log.writes.length
            (select_rows block pi i))], ?_, by omega, rfl, ?_, ?_, ?_, ?_⟩
        · simp only [BlockSpillWriter.write, hst]
          rfl
        · simp [BlockSpillWriter.write]
        · simp [List.range'_succ]
        · intro h; rw [hst] at h; cases h
        · intro h
          have h1 := h _ (List.mem_singleton_self _)
          simp only at h1
          rw [h1] at hst
          cases hst

/-! ## Lemmas: serialising the hash table -/

theorem collect_container_spec {Key : Type} :
    ∀ (entries : List (Key × Nat)) (kdone krest : List Key) (vdone vrest : List Nat),
      vdone.length = kdone.length → entries.length ≤ krest.length →
      entries.length ≤ vrest.length →
      collect_container entries (kdone ++ krest) (vdone ++ vrest) kdone.length =
        Except.ok (kdone ++ entries.map Prod.fst ++ krest.drop entries.length,
          vdone ++ entries.map Prod.snd ++ vrest.drop entries.length,
          kdone.length + entries.length) := by
  intro entries
  induction entries with
  | nil =>
    intro kdone krest vdone vrest _ _ _
    simp [collect_container]
    rfl
  | cons e es ih =>
    intro kdone krest vdone vrest hlen hk hv
    obtain ⟨k, place⟩ := e
    cases krest with
    | nil => simp at hk
    | cons k0 krest =>
      cases vrest with
      | nil => simp at hv
      | cons v0 vrest =>
        have h1 := vec_set_append_cons kdone k0 k krest
        have h2 : vec_set (vdone ++ v0 :: vrest) kdone.length place =
            Except.ok (vdone ++ place :: vrest) := by
          rw [← hlen]
          exact vec_set_append_cons vdone v0 place vrest
        have hih : collect_container es (kdone ++ k :: krest) (vdone ++ place :: vrest)
            (kdone.length + 1) =
            Except.ok (kdone ++ ((k, place) :: es).map Prod.fst ++
                (k0 :: krest).drop ((k, place) :: es).length,
              vdone ++ ((k, place) :: es).map Prod.snd ++
                (v0 :: vrest).drop ((k, place) :: es).length,
              kdone.length + ((k, place) :: es).length) := by
          have h := ih (kdone ++ [k]) krest (vdone ++ [place]) vrest (by simp [hlen])
            (by simpa using hk) (by simpa using hv)
          simp only [List.length_append, List.length_singleton, List.append_assoc,
            List.singleton_append] at h
          rw [h]
          simp [Nat.add_assoc, Nat.add_comm 1]
        simp only [collect_container, h1, h2, bind, Except.bind]
        exact hih

theorem insert_keys_into_columns_replicate {Key : Type} (keys : List Key) (num_rows : Nat) :
    ∀ (k j : Nat),
      insert_keys_into_columns keys num_rows j (List.replicate k ([] : Column Key)) =
        (List.range' j k).map (fun j => (keys.take num_rows).map (Cell.key j)) := by
  intro k
  induction k with
  | zero => intro j; simp [insert_keys_into_columns]
  | succ k ih =>
    intro j
    simp [List.replicate_succ, insert_keys_into_columns, ih, List.range'_succ]

theorem serialize_values_spec {Key : Type} (values : List Nat) (num_rows : Nat) :
    ∀ (evals : List AggFnEvaluator) (odone orest : List Nat),
      evals.length ≤ orest.length →
      @serialize_values Key (odone ++ orest) values num_rows odone.length evals =
        Except.ok (List.zipWith
          (fun e offset => (values.take num_rows).map
            (fun place => Cell.state e.function place offset)) evals orest) := by
  intro evals
  induction evals with
  | nil =>
    intro odone orest _
    simp [serialize_values]
    rfl
  | cons e es ih =>
    intro odone orest hlen
    cases orest with
    | nil => simp at hlen
    | cons o orest =>
      have h1 := vec_get_append_cons odone o orest
      have h2 := ih (odone ++ [o]) orest (by simpa using hlen)
      simp only [List.length_append, List.length_singleton, List.append_assoc,
        List.singleton_append] at h2
      simp only [serialize_values, h1, h2, bind, Except.bind, serialize_to_column,
        List.nil_append, List.zipWith_cons_cons]
      rfl

theorem resized_values_length {Key : Type} (shared : AggSharedState Key)
    (hash_table : HashTable Key) :
    hash_table.size ≤ (resized_values shared hash_table).length := by
  unfold resized_values vec_resize
  split
  · simp
    omega
  · omega

theorem take_map_append {α β : Type} (f : α → β) (l : List α) (r : List β) :
    (l.map f ++ r).take l.length = l.map f := by
  rw [List.take_left']
  simp

theorem take_map_append_cons {α β : Type} (f : α → β) (l : List α) (x : β) (r : List β) :
    (l.map f ++ x :: r).take (l.length + 1) = l.map f ++ [x] := by
  have h : l.map f ++ x :: r = (l.map f ++ [x]) ++ r := by simp
  rw [h, List.take_left']
  simp

/-- Under the two well-formedness conditions `_serialize_hash_table_to_block`
returns, and returns the block the spec describes. -/
theorem serialize_spec {Key : Type} [Inhabited Key] (shared : AggSharedState Key)
    (hash_table : HashTable Key) (hm : entries_fit shared hash_table)
    (hs : schema_ok shared hash_table) :
    _serialize_hash_table_to_block shared hash_table = Except.ok
      { status := Status.OK
        block := expected_block shared hash_table
        keys_ := shared.aggregate_data_container.map Prod.fst ++
          List.replicate (hash_table.size - shared.aggregate_data_container.length) default
        values := shared.aggregate_data_container.map Prod.snd ++
          (if hash_table.has_null_key_data then [hash_table.null_key_data] else []) ++
          (resized_values shared hash_table).drop
            (shared.aggregate_data_container.length +
              (if hash_table.has_null_key_data then 1 else 0)) } := by
  obtain ⟨hkeys, hnullable, hoff⟩ := hs
  have hV0 := resized_values_length shared hash_table
  have hlen : shared.aggregate_data_container.length ≤ hash_table.size := by
    unfold entries_fit at hm; omega
  have hc := collect_container_spec shared.aggregate_data_container []
    (List.replicate hash_table.size default) [] (resized_values shared hash_table) rfl
    (by simpa using hlen) (by omega)
  simp only [List.nil_append, List.length_nil, Nat.zero_add] at hc
  unfold _serialize_hash_table_to_block
  change collect_container shared.aggregate_data_container
    (List.replicate hash_table.size default) (resized_values shared hash_table) 0 >>= _ = _
  simp only [hc, bind, Except.bind, pure, Except.pure, insert_keys_into_columns_replicate]
  cases hnull : hash_table.has_null_key_data with
  | false =>
    have hv := @serialize_values_spec Key
      (List.map Prod.snd shared.aggregate_data_container ++
        List.drop shared.aggregate_data_container.length (resized_values shared hash_table))
      shared.aggregate_data_container.length shared.aggregate_evaluators []
      shared.offsets_of_aggregate_states hoff
    simp only [List.nil_append, List.length_nil] at hv
    simp only [Bool.false_eq_true, if_false, hv, take_map_append]
    simp [expected_block, key_column, value_column, hnull, List.range_eq_range',
      List.map_map, Function.comp_def]
  | true =>
    have hsize : shared.aggregate_data_container.length + 1 ≤ hash_table.size := by
      unfold entries_fit at hm; simp [hnull] at hm; omega
    have hpe : shared.probe_expr_ctxs.length = 1 := by
      have := congrArg List.length (hnullable hnull)
      simpa using this
    have hhead : (List.map ProbeExpr.nullable shared.probe_expr_ctxs).head? = some true := by
      rw [hnullable hnull]; rfl
    obtain ⟨v0, hdrop⟩ : ∃ v0, List.drop shared.aggregate_data_container.length
        (resized_values shared hash_table) =
        v0 :: List.drop (shared.aggregate_data_container.length + 1)
          (resized_values shared hash_table) :=
      ⟨_, List.drop_eq_getElem_cons (by omega)⟩
    have hset : vec_set (List.map Prod.snd shared.aggregate_data_container ++
        List.drop shared.aggregate_data_container.length (resized_values shared hash_table))
        shared.aggregate_data_container.length hash_table.null_key_data =
        Except.ok (List.map Prod.snd shared.aggregate_data_container ++
          hash_table.null_key_data ::
            List.drop (shared.aggregate_data_container.length + 1)
              (resized_values shared hash_table)) := by
      rw [hdrop]
      have h := vec_set_append_cons (List.map Prod.snd shared.aggregate_data_container)
        v0 hash_table.null_key_data
        (List.drop (shared.aggregate_data_container.length + 1)
          (resized_values shared hash_table))
      simpa using h
    have hv := @serialize_values_spec Key
      (List.map Prod.snd shared.aggregate_data_container ++
        hash_table.null_key_data ::
          List.drop (shared.aggregate_data_container.length + 1)
            (resized_values shared hash_table))
      (shared.aggregate_data_container.length + 1) shared.aggregate_evaluators []
      shared.offsets_of_aggregate_states hoff
    simp only [List.nil_append, List.length_nil] at hv
    simp only [if_true, hpe, hhead, CHECK, List.length_map, List.length_range', beq_self_eq_true,
      hset, hv, take_map_append, take_map_append_cons, pure, Except.pure]
    simp [expected_block, key_column, value_column, hnull, hpe, List.range_eq_range',
      List.map_map, Function.comp_def, List.range'_succ]

/-! ## Lemmas: shape of the serialised block -/

theorem mem_zipWith_exists {α β γ : Type} (f : α → β → γ) :
    ∀ (l1 : List α) (l2 : List β) (x : γ), x ∈ List.zipWith f l1 l2 → ∃ a b, x = f a b := by
  intro l1
  induction l1 with
  | nil => intro l2 x h; simp at h
  | cons a as ih =>
    intro l2 x h
    cases l2 with
    | nil => simp at h
    | cons b bs =>
      rw [List.zipWith_cons_cons, List.mem_cons] at h
      rcases h with h | h
      · exact ⟨a, b, h⟩
      · exact ih bs x h

theorem expected_block_column_length {Key : Type} (shared : AggSharedState Key)
    (hash_table : HashTable Key) :
    ∀ col ∈ expected_block shared hash_table,
      col.length = shared.aggregate_data_container.length +
        (if hash_table.has_null_key_data then 1 else 0) := by
  intro col hcol
  unfold expected_block at hcol
  rcases List.mem_append.mp hcol with h | h
  · obtain ⟨j, _, rfl⟩ := List.mem_map.mp h
    cases hash_table.has_null_key_data <;> simp [key_column]
  · obtain ⟨e, o, rfl⟩ := mem_zipWith_exists _ _ _ _ h
    cases hash_table.has_null_key_data <;> simp [value_column]

theorem expected_block_ne_nil {Key : Type} (shared : AggSharedState Key)
    (hash_table : HashTable Key) (hkeys : shared.probe_expr_ctxs ≠ []) :
    expected_block shared hash_table ≠ [] := by
  unfold expected_block
  cases h : shared.probe_expr_ctxs with
  | nil => exact absurd h hkeys
  | cons e es => simp [List.range_succ_eq_map]

theorem rows_expected_block {Key : Type} (shared : AggSharedState Key)
    (hash_table : HashTable Key) (hkeys : shared.probe_expr_ctxs ≠ []) :
    Block.rows (expected_block shared hash_table) =
      shared.aggregate_data_container.length +
        (if hash_table.has_null_key_data then 1 else 0) := by
  have hne := expected_block_ne_nil shared hash_table hkeys
  have hlen := expected_block_column_length shared hash_table
  cases hb : expected_block shared hash_table with
  | nil => exact absurd hb hne
  | cons col cols =>
    rw [hb] at hlen
    simpa [Block.rows] using hlen col (List.mem_cons_self _ _)

theorem expected_indices_length {Key : Type} (shared : AggSharedState Key)
    (hash_table : HashTable Key) :
    (expected_indices shared hash_table).length =
      shared.aggregate_data_container.length +
        (if hash_table.has_null_key_data then 1 else 0) := by
  unfold expected_indices
  cases hash_table.has_null_key_data <;> simp

theorem expected_indices_lt {Key : Type} (shared : AggSharedState Key)
    (hash_table : HashTable Key) (hP : 1 ≤ shared.spill_partition_helper.partition_count)
    (hidx : ∀ h, shared.spill_partition_helper.get_index h <
      shared.spill_partition_helper.partition_count) :
    ∀ x ∈ expected_indices shared hash_table,
      x < shared.spill_partition_helper.partition_count := by
  intro x hx
  unfold expected_indices at hx
  rcases List.mem_append.mp hx with h | h
  · obtain ⟨e, _, rfl⟩ := List.mem_map.mp h
    exact hidx _
  · cases hn : hash_table.has_null_key_data with
    | false => simp [hn] at h
    | true =>
      simp [hn] at h
      omega

theorem tally_nil (P : Nat) : tally P [] = List.replicate P 0 := by
  apply List.ext_getElem
  · simp [tally]
  · intro n h1 h2
    simp [tally]

/-! ## Lemmas: `partition_rows` and `_spill_hash_table` as a whole -/

/-- Lines 230-248 on the serialised block: no fault, every row gets the index
the spec describes, and `blocks_rows` is the tally of these indices. -/
theorem partition_rows_spec {Key : Type} [Inhabited Key] (shared : AggSharedState Key)
    (hash_table : HashTable Key)
    (hkeys : shared.probe_expr_ctxs ≠ [])
    (hP : 1 ≤ shared.spill_partition_helper.partition_count)
    (hidx : ∀ h, shared.spill_partition_helper.get_index h <
      shared.spill_partition_helper.partition_count) :
    partition_rows shared.spill_partition_helper hash_table (expected_block shared hash_table)
        (shared.aggregate_data_container.map Prod.fst ++
          List.replicate (hash_table.size - shared.aggregate_data_container.length) default) =
      Except.ok (expected_indices shared hash_table,
        tally shared.spill_partition_helper.partition_count
          (expected_indices shared hash_table)) := by
  have hrows := rows_expected_block shared hash_table hkeys
  unfold partition_rows
  rw [hrows]
  cases hnull : hash_table.has_null_key_data with
  | false =>
    have ha := assign_partitions_spec shared.spill_partition_helper hash_table.hash
      shared.spill_partition_helper.partition_count
      (shared.aggregate_data_container.map Prod.fst) []
      (List.replicate (hash_table.size - shared.aggregate_data_container.length) default) []
      (List.replicate shared.aggregate_data_container.length 0) rfl (by simp)
      (fun k _ => hidx _)
    simp only [List.nil_append, List.length_nil, List.length_map, tally_nil,
      List.drop_replicate, Nat.sub_self, List.replicate_zero, List.append_nil,
      List.map_map] at ha
    simp only [Bool.false_eq_true, if_false, Nat.add_zero, ha, bind, Except.bind, pure,
      Except.pure, expected_indices, hnull]
    simp [Function.comp_def]
  | true =>
    have ha := assign_partitions_spec shared.spill_partition_helper hash_table.hash
      shared.spill_partition_helper.partition_count
      (shared.aggregate_data_container.map Prod.fst) []
      (List.replicate (hash_table.size - shared.aggregate_data_container.length) default) []
      (List.replicate (shared.aggregate_data_container.length + 1) 0) rfl (by simp)
      (fun k _ => hidx _)
    simp only [List.nil_append, List.length_nil, List.length_map, tally_nil,
      List.drop_replicate, Nat.add_sub_cancel_left, List.map_map] at ha
    have hdec1 : size_t_dec (shared.aggregate_data_container.length + 1) =
        shared.aggregate_data_container.length := by simp [size_t_dec]
    have hdec2 : size_t_dec shared.spill_partition_helper.partition_count =
        shared.spill_partition_helper.partition_count - 1 := by
      unfold size_t_dec
      rw [if_neg (by omega)]
    have hlt : shared.spill_partition_helper.partition_count - 1 <
        shared.spill_partition_helper.partition_count := by omega
    have hs1 := vec_set_append_cons
      (List.map ((fun k => shared.spill_partition_helper.get_index (hash_table.hash k)) ∘
        Prod.fst) shared.aggregate_data_container) 0
      (shared.spill_partition_helper.partition_count - 1) []
    rw [List.length_map] at hs1
    have hs2 := vec_get_tally shared.spill_partition_helper.partition_count
      (List.map ((fun k => shared.spill_partition_helper.get_index (hash_table.hash k)) ∘
        Prod.fst) shared.aggregate_data_container) _ hlt
    have hs3 := vec_set_tally shared.spill_partition_helper.partition_count
      (List.map ((fun k => shared.spill_partition_helper.get_index (hash_table.hash k)) ∘
        Prod.fst) shared.aggregate_data_container) _ hlt
    simp only [if_true, hdec1, hdec2, ha, bind, Except.bind, pure, Except.pure,
      expected_indices, hnull, List.replicate_one, hs1, hs2, hs3]
    simp [Function.comp_def]

/-- The spill context a call leaves behind: `has_data` set, the profile child
created if there was none, the writer id appended if a writer was acquired. -/
theorem spill_context_after {Key : Type} (env : ExecEnv Key) (ctx : SpillContext) :
    (if (!ctx.has_data) = true then
        { ctx with has_data := true, runtime_profile := some env.create_child }
      else ctx) =
      { has_data := true
        stream_ids := ctx.stream_ids
        runtime_profile := if ctx.has_data then ctx.runtime_profile else some env.create_child } := by
  cases ctx with
  | mk hd ids prof => cases hd <;> simp

/-- The whole of `_spill_hash_table` on a well-formed state: it returns (no
fault), with the spill context described by `spill_context_after`; without a
writer nothing is written; with a writer the `m` blocks written are the row
selections of partitions `0, 1, ..` of the serialised block, all `P` of them
when the status is OK, and when no write failed the status is that of the
final close. -/
theorem spill_spec {Key : Type} [Inhabited Key] (env : ExecEnv Key)
    (shared : AggSharedState Key) (hash_table : HashTable Key)
    (hm : entries_match shared hash_table) (hs : schema_ok shared hash_table)
    (hP : 1 ≤ shared.spill_partition_helper.partition_count)
    (hidx : ∀ h, shared.spill_partition_helper.get_index h <
      shared.spill_partition_helper.partition_count) :
    ∃ r : SpillResult Key,
      _spill_hash_table env shared hash_table = Except.ok r ∧
      r.spill_context =
        { has_data := true
          stream_ids := shared.spill_context.stream_ids ++
            (if env.get_writer_status.ok then [env.writer.id] else [])
          runtime_profile :=
            if shared.spill_context.has_data then shared.spill_context.runtime_profile
            else some env.create_child } ∧
      (env.get_writer_status.ok = false →
        r.status = env.get_writer_status ∧ r.log.writes = [] ∧ r.log.closes = []) ∧
      (env.get_writer_status.ok = true →
        ∃ m, m ≤ shared.spill_partition_helper.partition_count ∧
          r.log.writes.map Prod.fst =
            (List.range' 0 m).map (select_rows (expected_block shared hash_table)
              (expected_indices shared hash_table)) ∧
          (r.status.ok = true → m = shared.spill_partition_helper.partition_count) ∧
          ((∀ w ∈ r.log.writes, w.2 = Status.OK) →
            m = shared.spill_partition_helper.partition_count ∧
            r.status = env.writer.close_status 0)) := by
  have hser := serialize_spec shared hash_table (Nat.le_of_eq hm) hs
  obtain ⟨hkeys, -, -⟩ := hs
  have hrows := rows_expected_block shared hash_table hkeys
  have hlen : shared.aggregate_data_container.length ≤ hash_table.size := by
    unfold entries_match at hm; omega
  have hc1 : CHECK_EQ (Block.rows (expected_block shared hash_table)) hash_table.size =
      Except.ok () := check_eq_self _ _ (by rw [hrows]; exact hm)
  have hc2 : CHECK_EQ (shared.aggregate_data_container.map Prod.fst ++
      List.replicate (hash_table.size - shared.aggregate_data_container.length)
        (default : Key)).length (Block.rows (expected_block shared hash_table)) =
      Except.ok () := check_eq_self _ _ (by
        rw [hrows]; unfold entries_match at hm; simp; omega)
  have hpart := partition_rows_spec shared hash_table hkeys hP hidx
  unfold _spill_hash_table
  have hokOK : Status.OK.ok = true := rfl
  simp only [hser, hc1, hc2, bind, Except.bind, pure, Except.pure, spill_context_after,
    hokOK, Bool.not_true, Bool.false_eq_true, if_false]
  cases hgw : env.get_writer_status.ok with
  | false =>
    refine ⟨_, rfl, ?_, ?_, ?_⟩
    · simp
    · intro _; exact ⟨rfl, rfl, rfl⟩
    · intro h; cases h
  | true =>
    obtain ⟨st, log', m, new, hrun, hmle, hcl, hw, hblocks, hok, hall⟩ :=
      write_partitions_spec env.writer (expected_block shared hash_table)
        (expected_indices shared hash_table) shared.spill_partition_helper.partition_count
        (by
          intro col hcol
          rw [expected_block_column_length shared hash_table col hcol,
            expected_indices_length])
        (fun h => absurd h (expected_block_ne_nil shared hash_table hkeys))
        shared.spill_partition_helper.partition_count 0 ⟨[], []⟩ (by omega)
    simp only [Bool.not_true, Bool.false_eq_true, if_false, hpart, hrun]
    simp only [List.nil_append] at hw
    cases hst : st.ok with
    | false =>
      refine ⟨_, rfl, ?_, ?_, ?_⟩
      · simp
      · intro h; cases h
      · intro _
        refine ⟨m, hmle, ?_, ?_, ?_⟩
        · simp only [BlockSpillWriter.close, hw]; exact hblocks
        · intro h; simp only [Bool.not_false, if_true] at h; rw [hst] at h; cases h
        · intro h
          simp only [BlockSpillWriter.close, hw] at h
          have := hall h
          rw [this] at hst
          cases hst
    | true =>
      refine ⟨_, rfl, ?_, ?_, ?_⟩
      · simp [BlockSpillWriter.close]
      · intro h; cases h
      · intro _
        refine ⟨m, hmle, ?_, ?_, ?_⟩
        · simp only [BlockSpillWriter.close, hw]; exact hblocks
        · intro _; exact hok hst
        · intro _
          refine ⟨hok hst, ?_⟩
          simp [BlockSpillWriter.close, hcl]

/-! ## Lemmas: what every returning call does to the spill context -/

theorem serialize_status_ok {Key : Type} [Inhabited Key] (shared : AggSharedState Key)
    (hash_table : HashTable Key) (ser : Serialized Key)
    (h : _serialize_hash_table_to_block shared hash_table = Except.ok ser) :
    ser.status = Status.OK := by
  unfold _serialize_hash_table_to_block at h
  simp only [bind, Except.bind, pure, Except.pure] at h
  repeat' split at h
  all_goals first
    | (cases h; rfl)
    | cases h

/-- Whatever the state, a call that returns has set `has_data`, created the
profile child if there was none, appended the writer id if a writer was acquired
and nothing else; without a writer it returns the status of `get_writer`. -/
theorem spill_context_of_result {Key : Type} [Inhabited Key] (env : ExecEnv Key)
    (shared : AggSharedState Key) (hash_table : HashTable Key) (r : SpillResult Key)
    (h : _spill_hash_table env shared hash_table = Except.ok r) :
    r.spill_context =
      { has_data := true
        stream_ids := shared.spill_context.stream_ids ++
          (if env.get_writer_status.ok then [env.writer.id] else [])
        runtime_profile :=
          if shared.spill_context.has_data then shared.spill_context.runtime_profile
          else some env.create_child } ∧
    (env.get_writer_status.ok = false → r.status = env.get_writer_status) := by
  unfold _spill_hash_table at h
  simp only [bind, Except.bind, pure, Except.pure, spill_context_after] at h
  split at h
  · cases h
  · rename_i ser hser
    have hst := serialize_status_ok shared hash_table ser hser
    have hokOK : Status.OK.ok = true := rfl
    simp only [hst, hokOK, Bool.not_true, Bool.false_eq_true, if_false] at h
    repeat' split at h
    all_goals first
      | (cases h; simp_all)
      | cases h

/-! ## Lemmas: the selections partition the rows -/

theorem filter_lt_succ_perm {α : Type} (z : List (α × Nat)) (P : Nat) :
    (z.filter (fun x => decide (x.2 < P)) ++ z.filter (fun x => x.2 == P)).Perm
      (z.filter (fun x => decide (x.2 < P + 1))) := by
  induction z with
  | nil => simp
  | cons x xs ih =>
    by_cases h1 : x.2 < P
    · have h2 : x.2 < P + 1 := by omega
      have h3 : ¬ x.2 = P := by omega
      simp only [List.filter_cons, h1, h2, h3, decide_True, if_true, beq_iff_eq, if_false,
        List.cons_append]
      exact List.Perm.cons x ih
    · by_cases h3 : x.2 = P
      · simp only [List.filter_cons, h3, lt_irrefl, Nat.lt_succ_self, decide_True,
          decide_False, beq_self_eq_true, if_true, if_false, Bool.false_eq_true]
        exact List.perm_middle.trans (List.Perm.cons x ih)
      · have h2 : ¬ x.2 < P + 1 := by omega
        simp only [List.filter_cons, h1, h2, h3, decide_False, beq_iff_eq, if_false,
          Bool.false_eq_true]
        exact ih

theorem bind_filter_perm {α : Type} (z : List (α × Nat)) (P : Nat) :
    ((List.range P).flatMap (fun i => z.filter (fun x => x.2 == i))).Perm
      (z.filter (fun x => decide (x.2 < P))) := by
  induction P with
  | zero => simp
  | succ P ih =>
    rw [List.range_succ, List.flatMap_append]
    simp only [List.flatMap_cons, List.flatMap_nil, List.append_nil]
    exact (List.Perm.append_right _ ih).trans (filter_lt_succ_perm z P)

/-- Concatenating the selections of partitions `0 .. P-1` of a column gives a
permutation of the column: no cell is dropped or duplicated. -/
theorem select_column_perm {α : Type} (col : List α) (pi : List Nat) (P : Nat)
    (hlen : col.length ≤ pi.length) (hlt : ∀ x ∈ pi, x < P) :
    ((List.range P).flatMap (fun i => select_column col pi i)).Perm col := by
  have h1 : (List.range P).flatMap (fun i => select_column col pi i) =
      ((List.range P).flatMap (fun i => (col.zip pi).filter (fun x => x.2 == i))).map Prod.fst := by
    simp [select_column, List.map_flatMap]
  have h2 : (col.zip pi).filter (fun x => decide (x.2 < P)) = col.zip pi := by
    rw [List.filter_eq_self]
    intro x hx
    have := hlt x.2 (List.of_mem_zip hx).2
    simpa using this
  rw [h1]
  have h3 := (bind_filter_perm (col.zip pi) P).map Prod.fst
  rw [h2, List.map_fst_zip _ _ hlen] at h3
  exact h3

theorem select_column_append {α : Type} (body xs : List α) (a ys : List Nat) (i : Nat)
    (h : body.length = a.length) :
    select_column (body ++ xs) (a ++ ys) i = select_column body a i ++ select_column xs ys i := by
  simp [select_column, List.zip_append h]

theorem sum_rows_select_rows {Key : Type} (block : Block Key) (pi : List Nat) (P : Nat)
    (hcols : ∀ col ∈ block, col.length = pi.length) (hne : block ≠ [])
    (hlt : ∀ x ∈ pi, x < P) :
    (((List.range P).map (select_rows block pi)).map Block.rows).sum = pi.length := by
  have h : ((List.range P).map (select_rows block pi)).map Block.rows = tally P pi := by
    unfold tally
    rw [List.map_map]
    apply List.map_congr_left
    intro i _
    exact rows_select_rows block pi i hcols (fun hb => absurd hb hne)
  rw [h, sum_tally pi P hlt]

/-! ## Lemmas: the null-key row -/

theorem expected_block_split {Key : Type} (shared : AggSharedState Key)
    (hash_table : HashTable Key) (hnull : hash_table.has_null_key_data = true) :
    ∀ col ∈ expected_block shared hash_table,
      ∃ (body : Column Key) (x : Cell Key),
        col = body ++ [x] ∧ body.length = shared.aggregate_data_container.length := by
  intro col hcol
  unfold expected_block at hcol
  rcases List.mem_append.mp hcol with h | h
  · obtain ⟨j, _, rfl⟩ := List.mem_map.mp h
    exact ⟨shared.aggregate_data_container.map (fun e => Cell.key j e.1), Cell.null,
      by simp [key_column, hnull], by simp⟩
  · obtain ⟨e, o, rfl⟩ := mem_zipWith_exists _ _ _ _ h
    exact ⟨shared.aggregate_data_container.map (fun en => Cell.state e.function en.2 o),
      Cell.state e.function hash_table.null_key_data o,
      by simp [value_column, hnull], by simp⟩

theorem expected_block_last_row {Key : Type} (shared : AggSharedState Key)
    (hash_table : HashTable Key) (hnull : hash_table.has_null_key_data = true) :
    (expected_block shared hash_table).map List.getLast? =
      (null_key_row shared hash_table).map some := by
  simp [expected_block, null_key_row, key_column, value_column, hnull, List.map_zipWith,
    Function.comp_def]

theorem select_column_last {α : Type} (body : List α) (x : α) (a : List Nat) (q : Nat)
    (h : body.length = a.length) :
    (select_column (body ++ [x]) (a ++ [q]) q).getLast? = (body ++ [x]).getLast? := by
  rw [select_column_append body [x] a [q] q h]
  simp [select_column]

theorem select_rows_last_row {Key : Type} (shared : AggSharedState Key)
    (hash_table : HashTable Key) (hnull : hash_table.has_null_key_data = true) :
    (select_rows (expected_block shared hash_table) (expected_indices shared hash_table)
        (shared.spill_partition_helper.partition_count - 1)).map List.getLast? =
      (expected_block shared hash_table).map List.getLast? := by
  unfold select_rows
  rw [List.map_map]
  apply List.map_congr_left
  intro col hcol
  obtain ⟨body, x, rfl, hlen⟩ := expected_block_split shared hash_table hnull col hcol
  simp only [Function.comp_apply, expected_indices, hnull, if_true]
  exact select_column_last body x _ _ (by simp [hlen])

theorem select_rows_nil_indices {Key : Type} (block : Block Key) (i : Nat) :
    select_rows block [] i = Block.clone_empty block :=
  (clone_empty_eq_select block [] i (by simp)).symm

/-! ## The sample round, evaluated -/

/-- The sample round run to the end: partition 0 receives key 6, partition 1
keys 5 and 7 and the null-key row. -/
theorem sample_spill_run :
    _spill_hash_table sample_env sample_shared sample_table =
      Except.ok
        { status := Status.OK
          spill_context := ⟨true, [7], some 1⟩
          values := [100, 200, 300, 999]
          log := { writes :=
                     [([[Cell.key 0 6], [Cell.state 10 200 0]], Status.OK),
                      ([[Cell.key 0 5, Cell.key 0 7, Cell.null],
                        [Cell.state 10 100 0, Cell.state 10 300 0, Cell.state 10 999 0]],
                       Status.OK)]
                   closes := [Status.OK, Status.OK] } } := by
  rfl

/-! ## Theorems: serialisation and spill -/

/-- C7: for every hash table state whose container entries and null-key slot
fit in `size()` and whose schema is the one the hash-table path runs with,
`_serialize_hash_table_to_block` returns OK with the block whose key and value
columns hold the container's entries in iteration order (row `k` carries key and
state pointer of entry `k`), followed by one null-key row exactly when the table
has null-key data; the row count is the entry count plus one for that row, every
column has this many cells, and the returned keys vector has `hash_table.size()`
entries whose first ones are the entries' keys. -/
theorem serialize_hash_table_rows {Key : Type} [Inhabited Key] (shared : AggSharedState Key)
    (hash_table : HashTable Key) (hfit : entries_fit shared hash_table)
    (hs : schema_ok shared hash_table) :
    ∃ ser : Serialized Key,
      _serialize_hash_table_to_block shared hash_table = Except.ok ser ∧
      ser.status = Status.OK ∧
      ser.block = expected_block shared hash_table ∧
      Block.rows ser.block = shared.aggregate_data_container.length +
        (if hash_table.has_null_key_data then 1 else 0) ∧
      (∀ col ∈ ser.block, col.length = Block.rows ser.block) ∧
      ser.keys_.length = hash_table.size ∧
      ser.keys_.take shared.aggregate_data_container.length =
        shared.aggregate_data_container.map Prod.fst := by
  have hrows := rows_expected_block shared hash_table hs.1
  refine ⟨_, serialize_spec shared hash_table hfit hs, rfl, rfl, hrows, ?_, ?_, ?_⟩
  · intro col hcol
    simp only at hcol hrows ⊢
    rw [hrows]
    exact expected_block_column_length shared hash_table col hcol
  · unfold entries_fit at hfit
    simp
    omega
  · exact take_map_append _ _ _

theorem serialize_hash_table_rows_witness :
    entries_fit sample_shared sample_table ∧ schema_ok sample_shared sample_table ∧
    ∃ ser : Serialized Nat,
      _serialize_hash_table_to_block sample_shared sample_table = Except.ok ser ∧
      ser.block =
        [[Cell.key 0 5, Cell.key 0 6, Cell.key 0 7, Cell.null],
         [Cell.state 10 100 0, Cell.state 10 200 0, Cell.state 10 300 0,
          Cell.state 10 999 0]] ∧
      ser.keys_.length = 4 := by
  refine ⟨by decide, by decide, ?_⟩
  obtain ⟨ser, h1, _, h3, _, _, h6, _⟩ :=
    serialize_hash_table_rows sample_shared sample_table (by decide) (by decide)
  exact ⟨ser, h1, by rw [h3]; decide, h6⟩

/-- C9: when the container holds `size()` minus the null-key slot entries, the
schema is the one the hash-table path runs with, `P >= 1` and `get_index`
answers below `P`, no indexed access of the two functions leaves its vector and
no assertion fails, whatever the spill storage answers: serialisation and
partitioning return, `block.rows() == hash_table.size()`,
`keys.size() == block.rows()`, every `blocks_rows[i]` is the number of rows
copied for partition `i`, and `_spill_hash_table` returns a status. -/
theorem spill_accesses_and_checks_hold {Key : Type} [Inhabited Key]
    (shared : AggSharedState Key) (hash_table : HashTable Key)
    (hm : entries_match shared hash_table) (hs : schema_ok shared hash_table)
    (hP : 1 ≤ shared.spill_partition_helper.partition_count)
    (hidx : ∀ h, shared.spill_partition_helper.get_index h <
      shared.spill_partition_helper.partition_count) :
    ∃ (ser : Serialized Key) (partitioned_indices blocks_rows : List Nat),
      _serialize_hash_table_to_block shared hash_table = Except.ok ser ∧
      Block.rows ser.block = hash_table.size ∧
      ser.keys_.length = Block.rows ser.block ∧
      partition_rows shared.spill_partition_helper hash_table ser.block ser.keys_ =
        Except.ok (partitioned_indices, blocks_rows) ∧
      partitioned_indices.length = Block.rows ser.block ∧
      blocks_rows.length = shared.spill_partition_helper.partition_count ∧
      (∀ i, i < shared.spill_partition_helper.partition_count →
        vec_get blocks_rows i = Except.ok (Block.rows
          (copy_partition_rows ser.block i partitioned_indices 0 0 0
            (Block.clone_empty ser.block)))) ∧
      (∀ env : ExecEnv Key, ∃ r, _spill_hash_table env shared hash_table = Except.ok r) := by
  have hrows := rows_expected_block shared hash_table hs.1
  have hsize : Block.rows (expected_block shared hash_table) = hash_table.size := by
    rw [hrows]; exact hm
  refine ⟨_, _, _, serialize_spec shared hash_table (Nat.le_of_eq hm) hs, hsize, ?_,
    partition_rows_spec shared hash_table hs.1 hP hidx, ?_, tally_length _ _, ?_, ?_⟩
  · simp only [hsize]
    unfold entries_match at hm
    simp
    omega
  · simp only [hrows]
    exact expected_indices_length shared hash_table
  · intro i hi
    rw [vec_get_tally _ _ i hi, copy_partition_rows_eq_select, rows_select_rows]
    · intro col hcol
      rw [expected_block_column_length shared hash_table col hcol, expected_indices_length]
    · intro hb
      exact absurd hb (expected_block_ne_nil shared hash_table hs.1)
  · intro env
    obtain ⟨r, hr, _⟩ := spill_spec env shared hash_table hm hs hP hidx
    exact ⟨r, hr⟩

theorem spill_accesses_and_checks_hold_witness :
    entries_match sample_shared sample_table ∧ schema_ok sample_shared sample_table ∧
    1 ≤ sample_shared.spill_partition_helper.partition_count ∧
    (∀ h, sample_shared.spill_partition_helper.get_index h <
      sample_shared.spill_partition_helper.partition_count) ∧
    (∀ env : ExecEnv Nat, ∃ r, _spill_hash_table env sample_shared sample_table =
      Except.ok r) := by
  have hidx : ∀ h, sample_shared.spill_partition_helper.get_index h <
      sample_shared.spill_partition_helper.partition_count :=
    fun h => Nat.mod_lt h (by decide)
  obtain ⟨_, _, _, _, _, _, _, _, _, _, hall⟩ :=
    spill_accesses_and_checks_hold sample_shared sample_table (by decide) (by decide)
      (by decide) hidx
  exact ⟨by decide, by decide, by decide, hidx, hall⟩

/-- C1: on a well-formed state with `P >= 1` partitions and `get_index` below
`P`, when the writer is acquired and every write it received succeeded,
`_spill_hash_table` has performed exactly `P` writes, the `i`-th carrying the
rows of partition `i` of the serialised block (ascending order), and the row
counts of the written batches add up to the hash table size; with an empty
table these are `P` empty batches. -/
theorem spill_writes_one_batch_per_partition {Key : Type} [Inhabited Key] (env : ExecEnv Key)
    (shared : AggSharedState Key) (hash_table : HashTable Key)
    (hm : entries_match shared hash_table) (hs : schema_ok shared hash_table)
    (hP : 1 ≤ shared.spill_partition_helper.partition_count)
    (hidx : ∀ h, shared.spill_partition_helper.get_index h <
      shared.spill_partition_helper.partition_count)
    (hacq : env.get_writer_status = Status.OK) :
    ∃ (ser : Serialized Key) (partitioned_indices blocks_rows : List Nat)
      (r : SpillResult Key),
      _serialize_hash_table_to_block shared hash_table = Except.ok ser ∧
      partition_rows shared.spill_partition_helper hash_table ser.block ser.keys_ =
        Except.ok (partitioned_indices, blocks_rows) ∧
      _spill_hash_table env shared hash_table = Except.ok r ∧
      ((∀ w ∈ r.log.writes, w.2 = Status.OK) →
        r.log.writes.length = shared.spill_partition_helper.partition_count ∧
        r.log.writes.map Prod.fst =
          (List.range shared.spill_partition_helper.partition_count).map
            (select_rows ser.block partitioned_indices) ∧
        (r.log.writes.map (fun w => Block.rows w.1)).sum = hash_table.size ∧
        (hash_table.size = 0 →
          r.log.writes.map Prod.fst =
            List.replicate shared.spill_partition_helper.partition_count
              (Block.clone_empty ser.block))) := by
  obtain ⟨r, hr, _, _, hw⟩ := spill_spec env shared hash_table hm hs hP hidx
  obtain ⟨m, _, hblocks, _, hall⟩ := hw (by rw [hacq]; rfl)
  refine ⟨_, _, _, r, serialize_spec shared hash_table (Nat.le_of_eq hm) hs,
    partition_rows_spec shared hash_table hs.1 hP hidx, hr, ?_⟩
  intro hok
  obtain ⟨hmP, _⟩ := hall hok
  subst hmP
  rw [← List.range_eq_range'] at hblocks
  have hlen : r.log.writes.length = shared.spill_partition_helper.partition_count := by
    have := congrArg List.length hblocks
    simpa using this
  have hsum : (r.log.writes.map (fun w => Block.rows w.1)).sum = hash_table.size := by
    have h1 : r.log.writes.map (fun w => Block.rows w.1) =
        (r.log.writes.map Prod.fst).map Block.rows := by
      rw [List.map_map]; rfl
    rw [h1, hblocks, sum_rows_select_rows _ _ _
      (by
        intro col hcol
        rw [expected_block_column_length shared hash_table col hcol,
          expected_indices_length])
      (expected_block_ne_nil shared hash_table hs.1)
      (expected_indices_lt shared hash_table hP hidx), expected_indices_length]
    exact hm
  refine ⟨hlen, hblocks, hsum, ?_⟩
  intro h0
  have hnil : expected_indices shared hash_table = [] := by
    apply List.length_eq_zero.mp
    rw [expected_indices_length]
    unfold entries_match at hm
    omega
  rw [hblocks]
  simp only [hnil]
  rw [List.eq_replicate_iff]
  refine ⟨by simp, ?_⟩
  intro b hb
  obtain ⟨i, _, rfl⟩ := List.mem_map.mp hb
  exact select_rows_nil_indices _ i

theorem spill_writes_one_batch_per_partition_witness :
    entries_match sample_shared sample_table ∧ schema_ok sample_shared sample_table ∧
    sample_env.get_writer_status = Status.OK ∧
    ∃ r : SpillResult Nat,
      _spill_hash_table sample_env sample_shared sample_table = Except.ok r ∧
      (∀ w ∈ r.log.writes, w.2 = Status.OK) ∧
      r.log.writes.length = 2 ∧
      (r.log.writes.map (fun w => Block.rows w.1)).sum = 4 := by
  obtain ⟨_, _, _, r, _, _, hr, h⟩ :=
    spill_writes_one_batch_per_partition sample_env sample_shared sample_table
      (by decide) (by decide) (by decide) (fun h => Nat.mod_lt h (by decide)) rfl
  have hall : ∀ w ∈ r.log.writes, w.2 = Status.OK := by
    rw [sample_spill_run] at hr
    cases hr
    decide
  exact ⟨by decide, by decide, rfl, r, hr, hall, (h hall).1, (h hall).2.2.1⟩

/-- C5: for every block and every assignment of its rows to partitions, the
run-coalescing copy for partition `i` builds exactly the rows assigned to `i`,
in their original order; in a spill round with an acquired writer the batches
written are these selections for partitions `0, 1, ..` in order (all `P` of them
when no write failed), taken with the indices `get_index(hash(key))` for the
container entries and the last partition for the null-key row, and the
selections of the `P` partitions together hold every row exactly once. -/
theorem spill_batches_are_row_selections {Key : Type} [Inhabited Key] (env : ExecEnv Key)
    (shared : AggSharedState Key) (hash_table : HashTable Key)
    (hm : entries_match shared hash_table) (hs : schema_ok shared hash_table)
    (hP : 1 ≤ shared.spill_partition_helper.partition_count)
    (hidx : ∀ h, shared.spill_partition_helper.get_index h <
      shared.spill_partition_helper.partition_count)
    (hacq : env.get_writer_status = Status.OK) :
    (∀ (block : Block Key) (partitioned_indices : List Nat) (i : Nat),
      copy_partition_rows block i partitioned_indices 0 0 0 (Block.clone_empty block) =
        select_rows block partitioned_indices i) ∧
    ∃ (ser : Serialized Key) (partitioned_indices blocks_rows : List Nat)
      (r : SpillResult Key),
      _serialize_hash_table_to_block shared hash_table = Except.ok ser ∧
      partition_rows shared.spill_partition_helper hash_table ser.block ser.keys_ =
        Except.ok (partitioned_indices, blocks_rows) ∧
      _spill_hash_table env shared hash_table = Except.ok r ∧
      partitioned_indices = expected_indices shared hash_table ∧
      (∃ m, m ≤ shared.spill_partition_helper.partition_count ∧
        r.log.writes.map Prod.fst =
          (List.range m).map (select_rows ser.block partitioned_indices) ∧
        ((∀ w ∈ r.log.writes, w.2 = Status.OK) →
          m = shared.spill_partition_helper.partition_count)) ∧
      (∀ col ∈ ser.block,
        ((List.range shared.spill_partition_helper.partition_count).flatMap
          (fun i => select_column col partitioned_indices i)).Perm col) := by
  refine ⟨fun block pi i => copy_partition_rows_eq_select block i pi, ?_⟩
  obtain ⟨r, hr, _, _, hw⟩ := spill_spec env shared hash_table hm hs hP hidx
  obtain ⟨m, hmle, hblocks, _, hall⟩ := hw (by rw [hacq]; rfl)
  refine ⟨_, _, _, r, serialize_spec shared hash_table (Nat.le_of_eq hm) hs,
    partition_rows_spec shared hash_table hs.1 hP hidx, hr, rfl, ?_, ?_⟩
  · refine ⟨m, hmle, ?_, fun hok => (hall hok).1⟩
    rw [List.range_eq_range']
    exact hblocks
  · intro col hcol
    apply select_column_perm
    · simp only at hcol
      rw [expected_block_column_length shared hash_table col hcol, expected_indices_length]
    · exact expected_indices_lt shared hash_table hP hidx

theorem spill_batches_are_row_selections_witness :
    entries_match sample_shared sample_table ∧ schema_ok sample_shared sample_table ∧
    sample_env.get_writer_status = Status.OK ∧
    ∃ r : SpillResult Nat,
      _spill_hash_table sample_env sample_shared sample_table = Except.ok r ∧
      r.log.writes.map Prod.fst =
        (List.range 2).map (select_rows
          [[Cell.key 0 5, Cell.key 0 6, Cell.key 0 7, Cell.null],
           [Cell.state 10 100 0, Cell.state 10 200 0, Cell.state 10 300 0,
            Cell.state 10 999 0]]
          [1, 0, 1, 1]) := by
  obtain ⟨_, _, _, _, r, h1, h2, hr, h4, ⟨m, _, hm, hmP⟩, _⟩ :=
    spill_batches_are_row_selections sample_env sample_shared sample_table
      (by decide) (by decide) (by decide) (fun h => Nat.mod_lt h (by decide)) rfl
  have hall : ∀ w ∈ r.log.writes, w.2 = Status.OK := by
    rw [sample_spill_run] at hr
    cases hr
    decide
  have hm2 : m = 2 := hmP hall
  subst hm2
  refine ⟨by decide, by decide, rfl, r, hr, ?_⟩
  rw [serialize_spec sample_shared sample_table (by decide) (by decide)] at h1
  cases h1
  subst h4
  exact hm

/-- C6: when the hash table has null-key data and `P >= 1`, the indices computed
for the rows are `get_index(hash(key))` for every container entry, exactly as
without a null key, followed by `P - 1` for the null-key row, whatever the hash
function; the null-key row is the last row of the serialised block and of the
rows selected for partition `P - 1`; and when the writer is acquired and no
write failed, this selection is the last of the `P` batches written. -/
theorem null_key_row_goes_last {Key : Type} [Inhabited Key] (env : ExecEnv Key)
    (shared : AggSharedState Key) (hash_table : HashTable Key)
    (hm : entries_match shared hash_table) (hs : schema_ok shared hash_table)
    (hP : 1 ≤ shared.spill_partition_helper.partition_count)
    (hidx : ∀ h, shared.spill_partition_helper.get_index h <
      shared.spill_partition_helper.partition_count)
    (hnull : hash_table.has_null_key_data = true)
    (hacq : env.get_writer_status = Status.OK) :
    ∃ (ser : Serialized Key) (partitioned_indices blocks_rows : List Nat)
      (r : SpillResult Key),
      _serialize_hash_table_to_block shared hash_table = Except.ok ser ∧
      partition_rows shared.spill_partition_helper hash_table ser.block ser.keys_ =
        Except.ok (partitioned_indices, blocks_rows) ∧
      _spill_hash_table env shared hash_table = Except.ok r ∧
      partitioned_indices =
        shared.aggregate_data_container.map
            (fun e => shared.spill_partition_helper.get_index (hash_table.hash e.1)) ++
          [shared.spill_partition_helper.partition_count - 1] ∧
      ser.block.map List.getLast? = (null_key_row shared hash_table).map some ∧
      (select_rows ser.block partitioned_indices
          (shared.spill_partition_helper.partition_count - 1)).map List.getLast? =
        (null_key_row shared hash_table).map some ∧
      ((∀ w ∈ r.log.writes, w.2 = Status.OK) →
        r.log.writes.length = shared.spill_partition_helper.partition_count ∧
        (r.log.writes.map Prod.fst).getLast? =
          some (select_rows ser.block partitioned_indices
            (shared.spill_partition_helper.partition_count - 1))) := by
  obtain ⟨r, hr, _, _, hw⟩ := spill_spec env shared hash_table hm hs hP hidx
  obtain ⟨m, _, hblocks, _, hall⟩ := hw (by rw [hacq]; rfl)
  have hlast := expected_block_last_row shared hash_table hnull
  refine ⟨_, _, _, r, serialize_spec shared hash_table (Nat.le_of_eq hm) hs,
    partition_rows_spec shared hash_table hs.1 hP hidx, hr, ?_, hlast, ?_, ?_⟩
  · simp [expected_indices, hnull]
  · rw [select_rows_last_row shared hash_table hnull]
    exact hlast
  · intro hok
    obtain ⟨hmP, _⟩ := hall hok
    subst hmP
    have hlen : r.log.writes.length = shared.spill_partition_helper.partition_count := by
      have := congrArg List.length hblocks
      simpa using this
    refine ⟨hlen, ?_⟩
    obtain ⟨n, hn⟩ : ∃ n, shared.spill_partition_helper.partition_count = n + 1 :=
      ⟨shared.spill_partition_helper.partition_count - 1, by omega⟩
    rw [hblocks, hn, List.range'_1_concat, List.map_append, List.map_singleton,
      List.getLast?_concat]
    simp

theorem null_key_row_goes_last_witness :
    entries_match sample_shared sample_table ∧ schema_ok sample_shared sample_table ∧
    sample_table.has_null_key_data = true ∧ sample_env.get_writer_status = Status.OK ∧
    ∃ (ser : Serialized Nat) (partitioned_indices blocks_rows : List Nat)
      (r : SpillResult Nat),
      _serialize_hash_table_to_block sample_shared sample_table = Except.ok ser ∧
      partition_rows sample_shared.spill_partition_helper sample_table ser.block ser.keys_ =
        Except.ok (partitioned_indices, blocks_rows) ∧
      _spill_hash_table sample_env sample_shared sample_table = Except.ok r ∧
      partitioned_indices = [1, 0, 1, 1] ∧
      (select_rows ser.block partitioned_indices 1).map List.getLast? =
        [some Cell.null, some (Cell.state 10 999 0)] ∧
      (r.log.writes.map Prod.fst).getLast? = some (select_rows ser.block partitioned_indices 1) := by
  obtain ⟨ser, pi, br, r, h1, h2, hr, h4, _, h6, h7⟩ :=
    null_key_row_goes_last sample_env sample_shared sample_table
      (by decide) (by decide) (by decide) (fun h => Nat.mod_lt h (by decide)) rfl rfl
  have hall : ∀ w ∈ r.log.writes, w.2 = Status.OK := by
    have hr2 := hr
    rw [sample_spill_run] at hr2
    cases hr2
    decide
  exact ⟨by decide, by decide, rfl, rfl, ser, pi, br, r, h1, h2, hr, h4, h6, (h7 hall).2⟩

/-- C10 as stated fails: on the first spill a call whose `get_writer` fails
returns that error with `has_data` already set and the profile child created,
while the stream-id list is still empty. -/
theorem failed_acquisition_changes_spill_context :
    ∃ r : SpillResult Nat,
      _spill_hash_table no_writer_env sample_shared sample_table = Except.ok r ∧
      r.status = Status.Error 3 ∧
      r.spill_context ≠ sample_shared.spill_context ∧
      r.spill_context.has_data = true ∧
      r.spill_context.stream_ids = [] :=
  ⟨_, rfl, rfl, by decide, rfl, rfl⟩

/-- C10 (amended): every call of `_spill_hash_table` that returns, successful or
failed, leaves the stream-id list equal to the old list followed by the id of
the acquired writer, or to the old list when no writer was acquired, and leaves
`has_data` true, so `has_data` comes with a non-empty stream-id list after a
call that acquired a writer; a call that fails to acquire a writer returns the
error of `get_writer` and leaves SpillContext exactly as it was when `has_data`
was already set, and otherwise has only set `has_data` and the profile child.
On a well-formed state with `P >= 1` and `get_index` below `P` the call
returns. -/
theorem spill_context_bookkeeping {Key : Type} [Inhabited Key] (env : ExecEnv Key)
    (shared : AggSharedState Key) (hash_table : HashTable Key) :
    (∀ r : SpillResult Key, _spill_hash_table env shared hash_table = Except.ok r →
      r.spill_context.has_data = true ∧
      r.spill_context.stream_ids = shared.spill_context.stream_ids ++
        (if env.get_writer_status.ok then [env.writer.id] else []) ∧
      r.spill_context.runtime_profile =
        (if shared.spill_context.has_data then shared.spill_context.runtime_profile
         else some env.create_child) ∧
      (env.get_writer_status.ok = true → r.spill_context.stream_ids ≠ []) ∧
      (env.get_writer_status.ok = false →
        r.status = env.get_writer_status ∧
        r.spill_context.stream_ids = shared.spill_context.stream_ids ∧
        (shared.spill_context.has_data = true →
          r.spill_context = shared.spill_context))) ∧
    (entries_match shared hash_table → schema_ok shared hash_table →
      1 ≤ shared.spill_partition_helper.partition_count →
      (∀ h, shared.spill_partition_helper.get_index h <
        shared.spill_partition_helper.partition_count) →
      ∃ r : SpillResult Key, _spill_hash_table env shared hash_table = Except.ok r) := by
  constructor
  · intro r hr
    obtain ⟨hctx, hfail⟩ := spill_context_of_result env shared hash_table r hr
    refine ⟨by rw [hctx], by rw [hctx], by rw [hctx], ?_, ?_⟩
    · intro hok
      rw [hctx]
      simp [hok]
    · intro hno
      refine ⟨hfail hno, by rw [hctx]; simp [hno], ?_⟩
      intro hd
      rw [hctx]
      cases hsc : shared.spill_context with
      | mk d ids prof =>
        rw [hsc] at hd
        simp only at hd
        subst hd
        simp [hno]
  · intro hm hs hP hidx
    obtain ⟨r, hr, _⟩ := spill_spec env shared hash_table hm hs hP hidx
    exact ⟨r, hr⟩

theorem spill_context_bookkeeping_witness :
    entries_match sample_shared sample_table ∧ schema_ok sample_shared sample_table ∧
    ∃ r : SpillResult Nat,
      _spill_hash_table sample_env sample_shared sample_table = Except.ok r ∧
      r.spill_context.has_data = true ∧
      r.spill_context.stream_ids = [7] := by
  obtain ⟨hall, hex⟩ := spill_context_bookkeeping sample_env sample_shared sample_table
  obtain ⟨r, hr⟩ := hex (by decide) (by decide) (by decide)
    (fun h => Nat.mod_lt h (by decide))
  exact ⟨by decide, by decide, r, hr, (hall r hr).1, (hall r hr).2.1⟩

/-- C2, the code at the failing input: with an empty hash table, two partitions
and a writer whose every `write` fails with error 5, both empty-batch writes
fail and `_spill_hash_table` still returns OK. -/
theorem empty_batch_write_error_is_dropped :
    _spill_hash_table failing_write_env empty_shared empty_table =
      Except.ok
        { status := Status.OK
          spill_context := ⟨true, [7], some 1⟩
          values := []
          log := { writes := [([[], []], Status.Error 5), ([[], []], Status.Error 5)]
                   closes := [Status.OK, Status.OK] } } := by
  rfl

end AggSink
